import Mathlib

/-!
Shallow embedding of `src/dependencyUpdater.js`.

The script selects a stable version of a target package, writes it into the
manifest (`package.json`), checks every other declared dependency for
peer-dependency compatibility with the chosen target version (consulting the
npm registry), rewrites incompatible dependencies, and finally persists the
manifest once.

The `semver` npm library it calls (`valid`, `prerelease`, `satisfies`) is an
external collaborator; it is modelled below by an executable semantic-version
parser and range evaluator following node-semver's documented semantics
(strict mode): `major.minor.patch` with optional prerelease/build, ranges
built from `||`-separated alternatives of whitespace-separated comparators
with the operators `^ ~ >= <= > < =`, x-ranges and hyphen ranges, and the
rule that a prerelease version only matches a range alternative that names a
prerelease with the same `major.minor.patch` triple.

Effects of the script are made explicit: registry fetches and operator
prompts are supplied by an `Oracle`, and the run produces a trace of `Event`s
(prompts, per-dependency soft failures, the final file write).
-/

namespace DepUpdater

/-- Prerelease identifier of a semantic version: numeric or alphanumeric
(node-semver compares numeric identifiers below alphanumeric ones). -/
inductive PreId where
  | num (n : Nat)
  | str (s : List Char)
  deriving DecidableEq

/-- Parsed semantic version. Build metadata is validated by the parser but
dropped, since it never participates in precedence. -/
structure SemVer where
  major : Nat
  minor : Nat
  patch : Nat
  pre : List PreId
  deriving DecidableEq

/-- Lexicographic comparison of character lists (ASCII order, as JS string
comparison on identifiers). -/
def cmpCharList : List Char → List Char → Ordering
  | [], [] => .eq
  | [], _ :: _ => .lt
  | _ :: _, [] => .gt
  | a :: as, b :: bs =>
    match compare a b with
    | .eq => cmpCharList as bs
    | o => o

/-- Comparison of prerelease identifiers: numeric < alphanumeric. -/
def cmpPreId : PreId → PreId → Ordering
  | .num a, .num b => compare a b
  | .num _, .str _ => .lt
  | .str _, .num _ => .gt
  | .str a, .str b => cmpCharList a b

/-- Elementwise comparison of prerelease identifier lists; a strict prefix
compares lower. -/
def cmpPreList : List PreId → List PreId → Ordering
  | [], [] => .eq
  | [], _ :: _ => .lt
  | _ :: _, [] => .gt
  | a :: as, b :: bs =>
    match cmpPreId a b with
    | .eq => cmpPreList as bs
    | o => o

/-- Top-level prerelease comparison: a release (empty list) outranks any
prerelease of the same triple. -/
def cmpPre : List PreId → List PreId → Ordering
  | [], [] => .eq
  | [], _ :: _ => .gt
  | _ :: _, [] => .lt
  | a :: as, b :: bs => cmpPreList (a :: as) (b :: bs)

/-- Semantic-version precedence: major, then minor, then patch, then
prerelease. -/
def cmpVer (a b : SemVer) : Ordering :=
  match compare a.major b.major with
  | .eq =>
    match compare a.minor b.minor with
    | .eq =>
      match compare a.patch b.patch with
      | .eq => cmpPre a.pre b.pre
      | o => o
    | o => o
  | o => o

def isDigitC (c : Char) : Bool := '0' ≤ c && c ≤ '9'

def isAlphaC (c : Char) : Bool := ('a' ≤ c && c ≤ 'z') || ('A' ≤ c && c ≤ 'Z')

def isIdentC (c : Char) : Bool := isDigitC c || isAlphaC c || c == '-'

def isSpaceC (c : Char) : Bool := c == ' ' || c == '\t' || c == '\n' || c == '\r'

/-- Leading and trailing whitespace removal (node-semver trims its input). -/
def trimC (l : List Char) : List Char :=
  ((l.dropWhile isSpaceC).reverse.dropWhile isSpaceC).reverse

/-- Split a character list on a separator character; always returns at least
one (possibly empty) chunk, like JS `String.prototype.split`. -/
def splitOnC (sep : Char) : List Char → List (List Char)
  | [] => [[]]
  | c :: rest =>
    if c == sep then [] :: splitOnC sep rest
    else
      match splitOnC sep rest with
      | [] => [[c]]
      | h :: t => (c :: h) :: t

/-- Split at the first occurrence of a separator character, reporting whether
the separator occurred. -/
def splitFirstC (sep : Char) : List Char → List Char × Option (List Char)
  | [] => ([], none)
  | c :: rest =>
    if c == sep then ([], some rest)
    else
      let p := splitFirstC sep rest
      (c :: p.1, p.2)

def natOfDigits (l : List Char) : Nat :=
  l.foldl (fun n c => n * 10 + (c.toNat - '0'.toNat)) 0

/-- Numeric version component: nonempty, digits only, no leading zero. -/
def parseNumC (l : List Char) : Option Nat :=
  if l.isEmpty then none
  else if l.all isDigitC then
    if l.head? = some '0' ∧ 1 < l.length then none
    else some (natOfDigits l)
  else none

/-- Prerelease identifier: numeric (no leading zero) or alphanumeric. -/
def parsePreId (l : List Char) : Option PreId :=
  if l.isEmpty then none
  else if l.all isDigitC then
    if l.head? = some '0' ∧ 1 < l.length then none
    else some (.num (natOfDigits l))
  else if l.all isIdentC then some (.str l)
  else none

def parsePre (l : List Char) : Option (List PreId) :=
  (splitOnC '.' l).mapM parsePreId

def validBuildId (l : List Char) : Bool := !l.isEmpty && l.all isIdentC

/-- Drop one optional leading `v` (node-semver's `^v?`). -/
def stripV : List Char → List Char
  | 'v' :: r => r
  | l => l

/-- Parser for a full semantic version (node-semver `valid`, strict mode):
optional leading `v`, `major.minor.patch`, optional `-prerelease`, optional
`+build`. -/
def parseSemVerC (l0 : List Char) : Option SemVer :=
  let l1 := trimC l0
  let l2 := stripV l1
  let core := splitFirstC '+' l2
  let bOk := match core.2 with
    | none => true
    | some b => (splitOnC '.' b).all validBuildId
  if bOk then
    let vp := splitFirstC '-' core.1
    let preP := match vp.2 with
      | none => some []
      | some pp => parsePre pp
    match preP, splitOnC '.' vp.1 with
    | some pre, [a, b, c] => do
      let M ← parseNumC a
      let m ← parseNumC b
      let p ← parseNumC c
      some ⟨M, m, p, pre⟩
    | _, _ => none
  else none

def parseSemVer (s : String) : Option SemVer := parseSemVerC s.data

/-- Range comparator operators recognised by node-semver. -/
inductive ROp where
  | eq | lt | le | gt | ge | caret | tilde
  deriving DecidableEq

/-- A possibly partial version as written in a range (`1`, `1.2`, `1.x`,
`1.2.3-rc.1`); `none` components are x-range wildcards or omitted. -/
structure RPart where
  major : Option Nat
  minor : Option Nat
  patch : Option Nat
  pre : List PreId
  deriving DecidableEq

/-- One version component of a range: number or wildcard (`x`, `X`, `*`). -/
def parseXC (l : List Char) : Option (Option Nat) :=
  if l = ['x'] || l = ['X'] || l = ['*'] then some none
  else (parseNumC l).map some

/-- Parse a (possibly partial) version occurring in a range token. -/
def parseRPart (l0 : List Char) : Option RPart :=
  let l := stripV l0
  let core := splitFirstC '+' l
  let vp := splitFirstC '-' core.1
  match vp.2, splitOnC '.' vp.1 with
  | none, [a] => (parseXC a).map fun M => ⟨M, none, none, []⟩
  | none, [a, b] => do
    let M ← parseXC a
    let m ← parseXC b
    some ⟨M, m, none, []⟩
  | pp, [a, b, c] => do
    let M ← parseXC a
    let m ← parseXC b
    let p ← parseXC c
    let pre ← match pp with
      | none => some []
      | some l2 => parsePre l2
    some ⟨M, m, p, pre⟩
  | _, _ => none

structure RComp where
  op : ROp
  part : RPart
  deriving DecidableEq

def parseOpC : List Char → ROp × List Char
  | '>' :: '=' :: r => (.ge, r)
  | '<' :: '=' :: r => (.le, r)
  | '>' :: r => (.gt, r)
  | '<' :: r => (.lt, r)
  | '=' :: r => (.eq, r)
  | '^' :: r => (.caret, r)
  | '~' :: '>' :: r => (.tilde, r)
  | '~' :: r => (.tilde, r)
  | r => (.eq, r)

def parseRComp (l : List Char) : Option RComp :=
  let p := parseOpC l
  (parseRPart p.2).map fun pt => ⟨p.1, pt⟩

/-- A primitive comparison against a concrete version, after desugaring
x-ranges, carets and tildes. -/
inductive Bound where
  | ge (v : SemVer)
  | gt (v : SemVer)
  | le (v : SemVer)
  | lt (v : SemVer)
  deriving DecidableEq

def boundVer : Bound → SemVer
  | .ge v => v
  | .gt v => v
  | .le v => v
  | .lt v => v

/-- The `-0` prerelease sentinel node-semver uses for exclusive upper bounds
(`X.Y.Z-0` is the least version with triple `X.Y.Z`). -/
def zeroPre : List PreId := [.num 0]

/-- A bound matched by no version at all (node-semver's `<0.0.0-0`). -/
def noneBound : Bound := .lt ⟨0, 0, 0, zeroPre⟩

/-- Desugar one comparator to primitive bounds, following node-semver's
x-range / caret / tilde replacement rules. -/
def desugar (c : RComp) : List Bound :=
  match c.part.major with
  | none =>
    match c.op with
    | .gt => [noneBound]
    | .lt => [noneBound]
    | _ => []
  | some M =>
    match c.op with
    | .eq =>
      match c.part.minor with
      | none => [.ge ⟨M, 0, 0, []⟩, .lt ⟨M + 1, 0, 0, zeroPre⟩]
      | some m =>
        match c.part.patch with
        | none => [.ge ⟨M, m, 0, []⟩, .lt ⟨M, m + 1, 0, zeroPre⟩]
        | some p => [.ge ⟨M, m, p, c.part.pre⟩, .le ⟨M, m, p, c.part.pre⟩]
    | .caret =>
      match c.part.minor with
      | none => [.ge ⟨M, 0, 0, []⟩, .lt ⟨M + 1, 0, 0, zeroPre⟩]
      | some m =>
        match c.part.patch with
        | none =>
          if M = 0 then [.ge ⟨0, m, 0, []⟩, .lt ⟨0, m + 1, 0, zeroPre⟩]
          else [.ge ⟨M, m, 0, []⟩, .lt ⟨M + 1, 0, 0, zeroPre⟩]
        | some p =>
          if 0 < M then [.ge ⟨M, m, p, c.part.pre⟩, .lt ⟨M + 1, 0, 0, zeroPre⟩]
          else if 0 < m then [.ge ⟨0, m, p, c.part.pre⟩, .lt ⟨0, m + 1, 0, zeroPre⟩]
          else [.ge ⟨0, 0, p, c.part.pre⟩, .lt ⟨0, 0, p + 1, zeroPre⟩]
    | .tilde =>
      match c.part.minor with
      | none => [.ge ⟨M, 0, 0, []⟩, .lt ⟨M + 1, 0, 0, zeroPre⟩]
      | some m =>
        match c.part.patch with
        | none => [.ge ⟨M, m, 0, []⟩, .lt ⟨M, m + 1, 0, zeroPre⟩]
        | some p => [.ge ⟨M, m, p, c.part.pre⟩, .lt ⟨M, m + 1, 0, zeroPre⟩]
    | .ge =>
      match c.part.minor with
      | none => [.ge ⟨M, 0, 0, []⟩]
      | some m =>
        match c.part.patch with
        | none => [.ge ⟨M, m, 0, []⟩]
        | some p => [.ge ⟨M, m, p, c.part.pre⟩]
    | .gt =>
      match c.part.minor with
      | none => [.ge ⟨M + 1, 0, 0, []⟩]
      | some m =>
        match c.part.patch with
        | none => [.ge ⟨M, m + 1, 0, []⟩]
        | some p => [.gt ⟨M, m, p, c.part.pre⟩]
    | .le =>
      match c.part.minor with
      | none => [.lt ⟨M + 1, 0, 0, zeroPre⟩]
      | some m =>
        match c.part.patch with
        | none => [.lt ⟨M, m + 1, 0, zeroPre⟩]
        | some p => [.le ⟨M, m, p, c.part.pre⟩]
    | .lt =>
      match c.part.minor with
      | none => [.lt ⟨M, 0, 0, zeroPre⟩]
      | some m =>
        match c.part.patch with
        | none => [.lt ⟨M, m, 0, zeroPre⟩]
        | some p => [.lt ⟨M, m, p, c.part.pre⟩]

/-- Bounds of a hyphen range `a - b`. -/
def hyphenBounds (p1 p2 : RPart) : List Bound :=
  let lo := match p1.major with
    | none => []
    | some M =>
      match p1.minor with
      | none => [Bound.ge ⟨M, 0, 0, []⟩]
      | some m =>
        match p1.patch with
        | none => [Bound.ge ⟨M, m, 0, []⟩]
        | some p => [Bound.ge ⟨M, m, p, p1.pre⟩]
  let hi := match p2.major with
    | none => []
    | some M =>
      match p2.minor with
      | none => [Bound.lt ⟨M + 1, 0, 0, zeroPre⟩]
      | some m =>
        match p2.patch with
        | none => [Bound.lt ⟨M, m + 1, 0, zeroPre⟩]
        | some p => [Bound.le ⟨M, m, p, p2.pre⟩]
  lo ++ hi

def boundOk (v : SemVer) : Bound → Bool
  | .ge w => cmpVer v w != .lt
  | .gt w => cmpVer v w == .gt
  | .le w => cmpVer v w != .gt
  | .lt w => cmpVer v w == .lt

/-- node-semver's prerelease rule: a prerelease version only matches an
alternative that mentions a prerelease on the same `major.minor.patch`. -/
def preAllowed (v : SemVer) (bs : List Bound) : Bool :=
  v.pre.isEmpty ||
    bs.any fun b =>
      let w := boundVer b
      !w.pre.isEmpty && w.major == v.major && w.minor == v.minor && w.patch == v.patch

/-- Split the characters of one range alternative into whitespace-separated
tokens. -/
def wordsC (l : List Char) : List (List Char) :=
  (splitOnC ' ' (l.map fun c => if isSpaceC c then ' ' else c)).filter fun w => !w.isEmpty

/-- Parse one `||`-alternative of a range into its primitive bounds. -/
def parseAlt (l : List Char) : Option (List Bound) :=
  match wordsC l with
  | [t1, ['-'], t2] => do
    let p1 ← parseRPart t1
    let p2 ← parseRPart t2
    some (hyphenBounds p1 p2)
  | ts => do
    let cs ← ts.mapM parseRComp
    some (cs.map desugar).flatten

/-- Split a range string on `||`. -/
def splitPipes : List Char → List (List Char)
  | [] => [[]]
  | '|' :: '|' :: rest => [] :: splitPipes rest
  | c :: rest =>
    match splitPipes rest with
    | [] => [[c]]
    | h :: t => (c :: h) :: t

def parseRange (s : String) : Option (List (List Bound)) :=
  (splitPipes s.data).mapM parseAlt

/-- node-semver `satisfies(version, range)`: `false` whenever the version or
the range does not parse. -/
def satisfies (v r : String) : Bool :=
  match parseSemVer v, parseRange r with
  | some sv, some alts => alts.any fun bs => bs.all (boundOk sv) && preAllowed sv bs
  | _, _ => false

/-! ## JS objects as ordered association lists

A JS object literal is an ordered mapping with distinct keys; we model the
manifest's `dependencies` / `devDependencies` and the registry's `versions`
as association lists, with lookup returning the first match and update
rewriting the existing key in place (appending when absent), as JS property
assignment does. -/

/-- Dependency-class object of a manifest: package name to range string. -/
abbrev Obj := List (String × String)

/-- JS property read `o[k]`. -/
def objGet {α : Type} (l : List (String × α)) (k : String) : Option α :=
  (l.find? fun p => p.1 == k).map Prod.snd

/-- JS property write `o[k] = v`: overwrite in place when the key exists,
append otherwise. -/
def objSet : Obj → String → String → Obj
  | [], k, v => [(k, v)]
  | p :: t, k, v => if p.1 == k then (k, v) :: t else p :: objSet t k v

/-- Registry descriptor of one published version: its `peerDependencies`
object (empty list models an absent or empty object, as the source's
`|| {}` makes those indistinguishable). -/
structure VersionInfo where
  peerDependencies : List (String × String)
  deriving DecidableEq

/-- Registry metadata for one package: the `versions` object, in the key
order the registry document lists them. -/
structure Metadata where
  versions : List (String × VersionInfo)
  deriving DecidableEq

/-- Filter predicate of lines 100 and 142:
`semver.valid(v) && semver.prerelease(v) === null`. -/
def isStableKey (v : String) : Bool :=
  match parseSemVer v with
  | some s => s.pre.isEmpty
  | none => false

/-- Lines 99-101 and 141-143: the derived version list
`Object.keys(meta.versions).filter(v => valid v && prerelease v === null).reverse()`. -/
def stableKeys (m : Metadata) : List String :=
  ((m.versions.map Prod.fst).filter isStableKey).reverse

/-- Lookup `meta.versions[v]` (total, as the script only indexes keys it
obtained from the same object). -/
def infoOf (m : Metadata) (v : String) : VersionInfo :=
  (objGet m.versions v).getD ⟨[]⟩

/-- Line 148: `!peer[mainPkgName] || semver.satisfies(selectedMainVersion,
peer[mainPkgName])` — an absent (or falsy, i.e. empty-string) peer entry is
no constraint. -/
def peerOkB (selectedMainVersion mainPkgName : String) (vi : VersionInfo) : Bool :=
  match objGet vi.peerDependencies mainPkgName with
  | none => true
  | some r => r == "" || satisfies selectedMainVersion r

/-- Lines 145-154: scan the stable versions newest-first; at the first
version whose peer constraint on the target is absent or satisfied, set the
flag iff that version satisfies the installed range, then break. -/
def alreadyCompat (mainPkgName selectedMainVersion installedRange : String)
    (depMeta : Metadata) : Bool :=
  match (stableKeys depMeta).find? fun v =>
      peerOkB selectedMainVersion mainPkgName (infoOf depMeta v) with
  | none => false
  | some v => satisfies v installedRange

/-- Lines 161-164: every stable version whose peer constraint on the target
is absent or satisfied by the selected target version. -/
def compatibleVersions (mainPkgName selectedMainVersion : String)
    (depMeta : Metadata) : List String :=
  (stableKeys depMeta).filter fun v =>
    peerOkB selectedMainVersion mainPkgName (infoOf depMeta v)

/-- Invocation flags (lines 54-57). -/
structure Config where
  useLatest : Bool
  showIncompatible : Bool
  autoUpdate : Bool
  mainPkgName : String
  deriving DecidableEq

/-- The loaded `package.json`: either dependency class may be absent. -/
structure PackageJson where
  dependencies : Option Obj
  devDependencies : Option Obj
  deriving DecidableEq

/-- External collaborators: the registry (`fetchJson`, `none` models a
network or JSON-parse failure) and the interactive operator
(`inquirer.prompt` answers). -/
structure Oracle where
  registry : String → Option Metadata
  pickTarget : List String → String
  pickDep : String → List String → String

/-- Observable effects of a run, in order: the two prompt suspension points,
the per-dependency catch of line 193, and the final manifest write. -/
inductive Event where
  | promptTarget (choices : List String)
  | promptDep (dep : String) (choices : List String)
  | softFail (dep : String)
  | writeFile (pj : PackageJson)
  deriving DecidableEq

/-- JS truthiness of an optional string-valued property: present and not the
empty string. -/
def truthyVal : Option String → Bool
  | some s => s != ""
  | none => false

/-- Truthiness of the optional chain `obj?.[k]`. -/
def truthyGet (o : Option Obj) (k : String) : Bool :=
  truthyVal (o.bind fun l => objGet l k)

def setIn (o : Option Obj) (k v : String) : Option Obj :=
  o.map fun l => objSet l k v

/-- Both class entries of one package in a manifest (dependencies value,
devDependencies value). -/
def entryPair (pj : PackageJson) (k : String) : Option String × Option String :=
  (pj.dependencies.bind fun l => objGet l k,
   pj.devDependencies.bind fun l => objGet l k)

/-- JS object spread `{...a, ...b}`: keys of `a` in order (values overridden
by `b` where shared), then the keys of `b` not in `a`. -/
def spreadMerge (a b : Obj) : Obj :=
  (a.map fun p => (p.1, (objGet b p.1).getD p.2)) ++
    b.filter fun p => (objGet a p.1).isNone

/-- Lines 81-86: `{...packageJson.dependencies, ...packageJson.devDependencies}`
(spread of `undefined` contributes nothing). -/
def getAllDependencies (pj : PackageJson) : Obj :=
  spreadMerge (pj.dependencies.getD []) (pj.devDependencies.getD [])

/-- Lines 108-120: pick `allVersions[0]` under `--latest`, otherwise prompt
the operator with the top 50 stable versions. -/
def selectMain (cfg : Config) (orc : Oracle) (allVersions : List String)
    (v0 : String) : String × List Event :=
  if cfg.useLatest then (v0, [])
  else (orc.pickTarget (allVersions.take 50),
        [Event.promptTarget (allVersions.take 50)])

/-- Lines 122-131: write the selected target version (caret-prefixed under
`--latest`) into `dependencies` if truthily present there, else into
`devDependencies` if truthily present there, else create it under
`dependencies`. -/
def applyTargetVersion (cfg : Config) (selectedMainVersion : String)
    (pj : PackageJson) : PackageJson :=
  let val := if cfg.useLatest then "^" ++ selectedMainVersion else selectedMainVersion
  if truthyGet pj.dependencies cfg.mainPkgName then
    { pj with dependencies := setIn pj.dependencies cfg.mainPkgName val }
  else if truthyGet pj.devDependencies cfg.mainPkgName then
    { pj with devDependencies := setIn pj.devDependencies cfg.mainPkgName val }
  else
    { pj with dependencies := some (objSet (pj.dependencies.getD []) cfg.mainPkgName val) }

/-- Lines 135-196: one iteration of the dependency loop. The target itself is
skipped; a registry failure is caught and logged (`softFail`); otherwise the
already-compatible fast path, then the compatible-version selection
(automatic under `--autoupdate`, else an operator prompt over the top 20) and
the in-memory manifest update of lines 184-188. -/
def processDep (cfg : Config) (orc : Oracle) (selectedMainVersion : String)
    (allDeps : Obj) (pj : PackageJson) (dep : String) : PackageJson × List Event :=
  if dep == cfg.mainPkgName then (pj, [])
  else
    match orc.registry dep with
    | none => (pj, [Event.softFail dep])
    | some depMeta =>
      let installedRange := (objGet allDeps dep).getD ""
      if alreadyCompat cfg.mainPkgName selectedMainVersion installedRange depMeta then
        (pj, [])
      else
        match compatibleVersions cfg.mainPkgName selectedMainVersion depMeta with
        | [] => (pj, [])
        | v0 :: rest =>
          let cvs := v0 :: rest
          let sel :=
            if cfg.autoUpdate then (v0, ([] : List Event))
            else (orc.pickDep dep (cvs.take 20), [Event.promptDep dep (cvs.take 20)])
          let pj2 :=
            if truthyGet pj.dependencies dep then
              { pj with dependencies := setIn pj.dependencies dep sel.1 }
            else if truthyGet pj.devDependencies dep then
              { pj with devDependencies := setIn pj.devDependencies dep sel.1 }
            else pj
          (pj2, sel.2)

/-- The `for` loop of line 135, over the key list of the merged dependency
object (computed once, before the loop). -/
def runDeps (cfg : Config) (orc : Oracle) (selectedMainVersion : String)
    (allDeps : Obj) : PackageJson → List String → PackageJson × List Event
  | pj, [] => (pj, [])
  | pj, d :: ds =>
    let r1 := processDep cfg orc selectedMainVersion allDeps pj d
    let r2 := runDeps cfg orc selectedMainVersion allDeps r1.1 ds
    (r2.1, r1.2 ++ r2.2)

/-- Lines 88-200, `run()`: fetch the target's metadata (a failure there is an
unhandled rejection — the run aborts with no write, result `none`), derive
the stable list (empty list: error return, no write), select and apply the
target version, iterate the dependencies, then write the manifest exactly
once. -/
def run (cfg : Config) (orc : Oracle) (pj0 : PackageJson) :
    List Event × Option PackageJson :=
  match orc.registry cfg.mainPkgName with
  | none => ([], none)
  | some meta =>
    match stableKeys meta with
    | [] => ([], none)
    | v0 :: rest =>
      let sel := selectMain cfg orc (v0 :: rest) v0
      let pj1 := applyTargetVersion cfg sel.1 pj0
      let allDeps := getAllDependencies pj1
      let r := runDeps cfg orc sel.1 allDeps pj1 (allDeps.map Prod.fst)
      (sel.2 ++ r.2 ++ [Event.writeFile r.1], some r.1)

/-! ## Statement helpers

Projections of the run used to phrase the claims; they repeat, by
definition, what `run` computes on its way to the dependency loop. -/

/-- The target version the run settles on (selected from the stable list). -/
def chosenTarget (cfg : Config) (orc : Oracle) (meta : Metadata) : String :=
  match stableKeys meta with
  | [] => ""
  | v0 :: rest => (selectMain cfg orc (v0 :: rest) v0).1

/-- The in-memory manifest right after the target version was applied. -/
def manifestAfterTarget (cfg : Config) (orc : Oracle) (meta : Metadata)
    (pj0 : PackageJson) : PackageJson :=
  applyTargetVersion cfg (chosenTarget cfg orc meta) pj0

/-- The installed range the loop evaluates a dependency against
(`allDeps[dep]`). -/
def installedRangeOf (cfg : Config) (orc : Oracle) (meta : Metadata)
    (pj0 : PackageJson) (dep : String) : String :=
  (objGet (getAllDependencies (manifestAfterTarget cfg orc meta pj0)) dep).getD ""

/-- Key list of an optional dependency-class object. -/
def keysOf (o : Option Obj) : List String := (o.getD []).map Prod.fst

/-- The string the run writes for the target package (line 125/127/130):
caret-prefixed under `--latest`, the exact chosen version otherwise. -/
def targetWriteValue (cfg : Config) (orc : Oracle) (meta : Metadata) : String :=
  if cfg.useLatest then "^" ++ chosenTarget cfg orc meta else chosenTarget cfg orc meta

/-- The replacement version the loop settles on for an incompatible
dependency (lines 169-180): the newest compatible one under `--autoupdate`,
else the operator's pick among the top 20. -/
def chosenCompatible (cfg : Config) (orc : Oracle) (dep : String)
    (cvs : List String) : String :=
  if cfg.autoUpdate then cvs.headD "" else orc.pickDep dep (cvs.take 20)

/-- Whether a string carries a caret range operator in front. -/
def caretLead (s : String) : Bool := s.data.head? == some '^'

def isPromptEv : Event → Bool
  | .promptTarget _ => true
  | .promptDep _ _ => true
  | _ => false

def isWriteEv : Event → Bool
  | .writeFile _ => true
  | _ => false

def isPromptForDep (dep : String) : Event → Bool
  | .promptDep d _ => d == dep
  | _ => false

/-- Precedence comparison on version strings (both sides assumed valid;
`Ordering.eq` for unparsable input). -/
def cmpVerStr (a b : String) : Ordering :=
  match parseSemVer a, parseSemVer b with
  | some x, some y => cmpVer x y
  | _, _ => Ordering.eq

/-! ## Concrete fixtures

Small registry states and manifests used to evaluate the development on
closed inputs (witnesses and counterexamples). -/

/-- Target-package metadata: two stable versions, published in ascending
order. -/
def metaTargetW : Metadata := ⟨[("18.2.0", ⟨[]⟩), ("19.1.0", ⟨[]⟩)]⟩

/-- Dependent metadata: each version carries a peer constraint on `react`. -/
def metaDomW : Metadata :=
  ⟨[("18.2.0", ⟨[("react", "^18.0.0")]⟩), ("19.1.0", ⟨[("react", "^19.0.0")]⟩)]⟩

/-- Dependency metadata with one stable version and no peer constraints. -/
def metaFreeW : Metadata := ⟨[("1.2.0", ⟨[]⟩)]⟩

/-- Metadata whose newest stable version pins an old target, while an older
version is unconstrained. -/
def metaOldPeerW : Metadata :=
  ⟨[("1.0.0", ⟨[]⟩), ("2.0.0", ⟨[("react", "^18.0.0")]⟩)]⟩

/-- Metadata whose only stable version pins an old target. -/
def metaNoPeerOkW : Metadata := ⟨[("1.0.0", ⟨[("react", "^17.0.0")]⟩)]⟩

/-- Metadata listing a newer version before an older one (as a registry does
when an old major receives a backport after a newer major shipped). -/
def metaOutOfOrderW : Metadata := ⟨[("2.0.0", ⟨[]⟩), ("1.0.0", ⟨[]⟩)]⟩

/-- Registry oracle for the fixtures; every other package fails to fetch. -/
def orcW : Oracle :=
  ⟨fun n =>
    if n == "react" then some metaTargetW
    else if n == "react-dom" then some metaDomW
    else if n == "lodash" then some metaFreeW
    else none,
   fun _ => "18.2.0", fun _ _ => "18.2.0"⟩

/-- An unattended run: `--latest --autoupdate`. -/
def cfgW : Config := ⟨true, false, true, "react"⟩

/-- The spec's end-to-end example manifest. -/
def pjW : PackageJson :=
  ⟨some [("react", "18.2.0"), ("react-dom", "18.2.0")], none⟩

/-- A manifest whose target entry exists only in `devDependencies`, with the
falsy value `""`. -/
def pjFalsyW : PackageJson := ⟨some [], some [("react", "")]⟩

/-- A manifest declaring `react-dom` in both classes with different ranges. -/
def pjBothW : PackageJson :=
  ⟨some [("react", "18.2.0"), ("react-dom", "18.2.0")],
   some [("react-dom", "^17.0.0")]⟩

/-- A manifest declaring `react-dom` in both classes, with the falsy value
`""` in `dependencies`. -/
def pjFalsyDepW : PackageJson :=
  ⟨some [("react", "18.2.0"), ("react-dom", "")],
   some [("react-dom", "^17.0.0")]⟩

/-- A manifest declaring a dependency whose registry fetch fails. -/
def pjFailW : PackageJson := ⟨some [("left-pad", "^1.0.0")], none⟩

/-- A manifest with a compatible dependency. -/
def pjFreeW : PackageJson :=
  ⟨some [("react", "18.2.0"), ("lodash", "^1.0.0")], none⟩

/-! ## Lemmas about JS-object operations -/

theorem objGet_nil {α : Type} (k : String) : objGet ([] : List (String × α)) k = none :=
  rfl

theorem objGet_cons {α : Type} (k1 k : String) (w : α) (t : List (String × α)) :
    objGet ((k1, w) :: t) k = if k1 == k then some w else objGet t k := by
  by_cases h : k1 == k
  · simp [objGet, List.find?_cons, h]
  · simp [objGet, List.find?_cons, h]

theorem objGet_objSet_self (l : Obj) (k v : String) :
    objGet (objSet l k v) k = some v := by
  induction l with
  | nil => simp [objSet, objGet_cons]
  | cons p t ih =>
    obtain ⟨k1, w⟩ := p
    by_cases h : k1 == k
    · simp [objSet, h, objGet_cons]
    · simp [objSet, h, objGet_cons, ih]

theorem objGet_objSet_ne (l : Obj) {k k2 : String} (v : String) (h : k2 ≠ k) :
    objGet (objSet l k v) k2 = objGet l k2 := by
  have hb : (k == k2) = false := beq_eq_false_iff_ne.mpr fun hk => h hk.symm
  induction l with
  | nil => simp [objSet, objGet_cons, hb]
  | cons p t ih =>
    obtain ⟨k1, w⟩ := p
    by_cases h1 : k1 == k
    · have h1e : k1 = k := beq_iff_eq.mp h1
      subst h1e
      simp [objSet, objGet_cons, hb]
    · simp [objSet, h1, objGet_cons, ih]

theorem keys_objSet (l : Obj) (k v : String) :
    (objSet l k v).map Prod.fst =
      if (objGet l k).isSome then l.map Prod.fst else l.map Prod.fst ++ [k] := by
  induction l with
  | nil => simp [objSet, objGet]
  | cons p t ih =>
    obtain ⟨k1, w⟩ := p
    by_cases h : k1 == k
    · have he : k1 = k := beq_iff_eq.mp h
      subst he
      simp [objSet, objGet_cons, h]
    · have hb : (k1 == k) = false := by simpa using h
      simp only [objSet, hb, Bool.false_eq_true, if_false, List.map_cons, objGet_cons]
      rw [ih]
      by_cases hp : (objGet t k).isSome
      · simp [hp]
      · simp [hp]

theorem objGet_append {α : Type} (l1 l2 : List (String × α)) (k : String) :
    objGet (l1 ++ l2) k =
      match objGet l1 k with
      | some v => some v
      | none => objGet l2 k := by
  induction l1 with
  | nil => simp [objGet]
  | cons p t ih =>
    obtain ⟨k1, w⟩ := p
    by_cases h : k1 == k
    · simp [objGet_cons, h]
    · simp only [List.cons_append]
      rw [objGet_cons, objGet_cons]
      simp only [h, Bool.false_eq_true, if_false]
      exact ih

theorem objGet_mergeLeft (a b : Obj) (k : String) :
    objGet (a.map fun p => (p.1, (objGet b p.1).getD p.2)) k =
      (objGet a k).map fun va => (objGet b k).getD va := by
  induction a with
  | nil => simp [objGet]
  | cons p t ih =>
    obtain ⟨k1, w⟩ := p
    by_cases h : k1 == k
    · have he : k1 = k := beq_iff_eq.mp h
      subst he
      simp [objGet_cons, h]
    · simp only [List.map_cons]
      rw [objGet_cons, objGet_cons]
      simp only [h, Bool.false_eq_true, if_false]
      exact ih

theorem objGet_mergeRight (a b : Obj) (k : String) :
    objGet (b.filter fun p => (objGet a p.1).isNone) k =
      if (objGet a k).isSome then none else objGet b k := by
  induction b with
  | nil => simp [objGet]
  | cons p t ih =>
    obtain ⟨k1, w⟩ := p
    by_cases h : k1 == k
    · have he : k1 = k := beq_iff_eq.mp h
      subst he
      by_cases ha : (objGet a k1).isSome
      · have : (objGet a k1).isNone = false := by
          cases hx : objGet a k1 <;> simp [hx] at ha ⊢
        simp only [List.filter_cons, this, Bool.false_eq_true, if_false]
        rw [ih]
        simp [ha]
      · have : (objGet a k1).isNone = true := by
          cases hx : objGet a k1 <;> simp [hx] at ha ⊢
        simp only [List.filter_cons, this, if_true]
        simp [objGet_cons, h, ha]
    · simp only [List.filter_cons]
      by_cases hq : (objGet a k1).isNone
      · simp only [hq, if_true]
        rw [objGet_cons]
        simp only [h, Bool.false_eq_true, if_false]
        rw [ih, objGet_cons]
        simp [h]
      · simp only [hq, Bool.false_eq_true, if_false]
        rw [ih, objGet_cons]
        simp [h]

/-- Lookup in a JS object spread: the right object wins on shared keys, and a
key present only on one side keeps its value. -/
theorem objGet_spreadMerge (a b : Obj) (k : String) :
    objGet (spreadMerge a b) k =
      match objGet a k with
      | some va => some ((objGet b k).getD va)
      | none => objGet b k := by
  unfold spreadMerge
  rw [objGet_append, objGet_mergeLeft, objGet_mergeRight]
  cases objGet a k <;> simp

theorem objGet_isSome_iff_mem_keys {α : Type} (l : List (String × α)) (k : String) :
    (objGet l k).isSome ↔ k ∈ l.map Prod.fst := by
  induction l with
  | nil => simp [objGet]
  | cons p t ih =>
    obtain ⟨k1, w⟩ := p
    by_cases h : k1 == k
    · have he : k1 = k := beq_iff_eq.mp h
      subst he
      simp [objGet_cons]
    · rw [List.map_cons, objGet_cons]
      simp only [h, Bool.false_eq_true, if_false]
      rw [ih]
      constructor
      · exact fun hm => List.mem_cons_of_mem _ hm
      · intro hm
        rcases List.mem_cons.mp hm with he | hm2
        · exact absurd (beq_iff_eq.mpr he.symm) (by simpa using h)
        · exact hm2

theorem bind_objGet_getD (o : Option Obj) (k : String) :
    (o.bind fun l => objGet l k) = objGet (o.getD []) k := by
  cases o <;> simp [objGet]

theorem bind_setIn_self (l : Obj) (k v : String) :
    ((setIn (some l) k v).bind fun l2 => objGet l2 k) = some v := by
  simp [setIn, objGet_objSet_self]

theorem bind_setIn_ne (o : Option Obj) {k k2 : String} (v : String) (h : k2 ≠ k) :
    ((setIn o k v).bind fun l => objGet l k2) = o.bind fun l => objGet l k2 := by
  cases o with
  | none => rfl
  | some l => simp [setIn, objGet_objSet_ne _ _ h]

theorem exists_of_truthy {o : Option Obj} {k : String}
    (h : truthyGet o k = true) : ∃ l s, o = some l ∧ objGet l k = some s ∧ s ≠ "" := by
  cases o with
  | none => simp [truthyGet, truthyVal] at h
  | some l =>
    cases hg : objGet l k with
    | none => simp [truthyGet, truthyVal, hg] at h
    | some s =>
      refine ⟨l, s, rfl, hg, ?_⟩
      simp [truthyGet, truthyVal, hg] at h
      simpa using h

/-! ## Frame lemmas: what each phase of the run leaves untouched -/

/-- Applying the target version touches no other package's entries. -/
theorem entryPair_applyTarget_ne (cfg : Config) (s : String) (pj : PackageJson)
    {k : String} (h : k ≠ cfg.mainPkgName) :
    entryPair (applyTargetVersion cfg s pj) k = entryPair pj k := by
  unfold applyTargetVersion
  by_cases h1 : truthyGet pj.dependencies cfg.mainPkgName
  · simp only [h1, if_true, entryPair]
    rw [bind_setIn_ne _ _ h]
  · simp only [h1, Bool.false_eq_true, if_false]
    by_cases h2 : truthyGet pj.devDependencies cfg.mainPkgName
    · simp only [h2, if_true, entryPair]
      rw [bind_setIn_ne _ _ h]
    · simp only [h2, Bool.false_eq_true, if_false, entryPair]
      rw [Option.some_bind, objGet_objSet_ne _ _ h, ← bind_objGet_getD]

/-- One loop iteration touches no entry of a package other than the one it
processes. -/
theorem entryPair_processDep_ne (cfg : Config) (orc : Oracle) (s : String) (ad : Obj)
    (pj : PackageJson) (dep : String) {k : String} (h : k ≠ dep) :
    entryPair (processDep cfg orc s ad pj dep).1 k = entryPair pj k := by
  unfold processDep
  split
  · rfl
  · split
    · rfl
    · dsimp only
      split
      · rfl
      · split
        · rfl
        · dsimp only
          split
          · simp only [entryPair]
            rw [bind_setIn_ne _ _ h]
          · split
            · simp only [entryPair]
              rw [bind_setIn_ne _ _ h]
            · rfl

/-- The loop skips the target package itself (line 136). -/
theorem processDep_self (cfg : Config) (orc : Oracle) (s : String) (ad : Obj)
    (pj : PackageJson) :
    processDep cfg orc s ad pj cfg.mainPkgName = (pj, []) := by
  simp [processDep]

/-- A caught registry failure leaves the manifest unchanged and logs the
dependency (lines 193-195). -/
theorem processDep_softFail (cfg : Config) (orc : Oracle) (s : String) (ad : Obj)
    (pj : PackageJson) {dep : String} (hne : dep ≠ cfg.mainPkgName)
    (hreg : orc.registry dep = none) :
    processDep cfg orc s ad pj dep = (pj, [Event.softFail dep]) := by
  simp [processDep, beq_eq_false_iff_ne.mpr hne, hreg]

/-- The already-compatible fast path leaves the manifest unchanged
(lines 156-159). -/
theorem processDep_compat (cfg : Config) (orc : Oracle) (s : String) (ad : Obj)
    (pj : PackageJson) {dep : String} {depMeta : Metadata}
    (hne : dep ≠ cfg.mainPkgName) (hreg : orc.registry dep = some depMeta)
    (hac : alreadyCompat cfg.mainPkgName s ((objGet ad dep).getD "") depMeta = true) :
    processDep cfg orc s ad pj dep = (pj, []) := by
  simp [processDep, beq_eq_false_iff_ne.mpr hne, hreg, hac]

/-- An evaluation with no compatible versions leaves the manifest unchanged
(lines 189-191 only log). -/
theorem processDep_noCompat (cfg : Config) (orc : Oracle) (s : String) (ad : Obj)
    (pj : PackageJson) {dep : String} {depMeta : Metadata}
    (hne : dep ≠ cfg.mainPkgName) (hreg : orc.registry dep = some depMeta)
    (hac : alreadyCompat cfg.mainPkgName s ((objGet ad dep).getD "") depMeta = false)
    (hcv : compatibleVersions cfg.mainPkgName s depMeta = []) :
    processDep cfg orc s ad pj dep = (pj, []) := by
  simp [processDep, beq_eq_false_iff_ne.mpr hne, hreg, hac, hcv]

/-- A per-element state invariant is preserved across the whole loop. -/
theorem runDeps_entry_const (cfg : Config) (orc : Oracle) (s : String) (ad : Obj)
    (k : String) :
    ∀ (ds : List String) (pj : PackageJson),
      (∀ (pj2 : PackageJson) (d : String), d ∈ ds →
        entryPair (processDep cfg orc s ad pj2 d).1 k = entryPair pj2 k) →
      entryPair (runDeps cfg orc s ad pj ds).1 k = entryPair pj k := by
  intro ds
  induction ds with
  | nil => intro pj _; rfl
  | cons d t ih =>
    intro pj hstep
    show entryPair (runDeps cfg orc s ad (processDep cfg orc s ad pj d).1 t).1 k = _
    rw [ih _ fun pj2 d2 hd2 => hstep pj2 d2 (List.mem_cons_of_mem _ hd2)]
    exact hstep pj d (List.mem_cons_self _ _)

/-- Entries of a key not in the processed list survive the loop. -/
theorem runDeps_entry_nmem (cfg : Config) (orc : Oracle) (s : String) (ad : Obj)
    {k : String} :
    ∀ (ds : List String) (pj : PackageJson), k ∉ ds →
      entryPair (runDeps cfg orc s ad pj ds).1 k = entryPair pj k := by
  intro ds pj hk
  exact runDeps_entry_const cfg orc s ad k ds pj fun pj2 d hd =>
    entryPair_processDep_ne cfg orc s ad pj2 d fun he => hk (he ▸ hd)

/-- Running the loop once over a Nodup key list containing `dep` applies the
step transformation of `dep`'s entries exactly once. -/
theorem runDeps_entry_once (cfg : Config) (orc : Oracle) (s : String) (ad : Obj)
    {dep : String} {e0 e1 : Option String × Option String}
    (hstep : ∀ pj2 : PackageJson, entryPair pj2 dep = e0 →
      entryPair (processDep cfg orc s ad pj2 dep).1 dep = e1) :
    ∀ (ds : List String) (pj : PackageJson), ds.Nodup → dep ∈ ds →
      entryPair pj dep = e0 →
      entryPair (runDeps cfg orc s ad pj ds).1 dep = e1 := by
  intro ds
  induction ds with
  | nil => intro pj _ hmem; exact absurd hmem (List.not_mem_nil _)
  | cons d t ih =>
    intro pj hnd hmem h0
    have hnd2 := List.nodup_cons.mp hnd
    show entryPair (runDeps cfg orc s ad (processDep cfg orc s ad pj d).1 t).1 dep = e1
    by_cases hd : d = dep
    · subst hd
      rw [runDeps_entry_nmem cfg orc s ad t _ hnd2.1]
      exact hstep pj h0
    · rcases List.mem_cons.mp hmem with he | hmem2
      · exact absurd he.symm hd
      · refine ih _ hnd2.2 hmem2 ?_
        rw [entryPair_processDep_ne cfg orc s ad pj d fun he => hd he.symm]
        exact h0

/-! ## Event lemmas -/

theorem processDep_ev (cfg : Config) (orc : Oracle) (s : String) (ad : Obj)
    (pj : PackageJson) (d : String) :
    ∀ ev ∈ (processDep cfg orc s ad pj d).2,
      ev = Event.softFail d ∨
        (cfg.autoUpdate = false ∧ ∃ ch, ev = Event.promptDep d ch) := by
  unfold processDep
  split
  · intro ev hev; exact absurd hev (List.not_mem_nil _)
  · split
    · intro ev hev
      rw [List.mem_singleton] at hev
      exact Or.inl hev
    · dsimp only
      split
      · intro ev hev; exact absurd hev (List.not_mem_nil _)
      · split
        · intro ev hev; exact absurd hev (List.not_mem_nil _)
        · dsimp only
          by_cases ha : cfg.autoUpdate
          · simp only [ha, if_true]
            intro ev hev
            exact absurd hev (List.not_mem_nil _)
          · simp only [ha, Bool.false_eq_true, if_false]
            intro ev hev
            rw [List.mem_singleton] at hev
            exact Or.inr ⟨by simp [ha], _, hev⟩

theorem runDeps_ev (cfg : Config) (orc : Oracle) (s : String) (ad : Obj)
    (P : Event → Prop) :
    ∀ (ds : List String) (pj : PackageJson),
      (∀ (pj2 : PackageJson) (d : String), d ∈ ds →
        ∀ ev ∈ (processDep cfg orc s ad pj2 d).2, P ev) →
      ∀ ev ∈ (runDeps cfg orc s ad pj ds).2, P ev := by
  intro ds
  induction ds with
  | nil => intro pj _ ev hev; exact absurd hev (List.not_mem_nil _)
  | cons d t ih =>
    intro pj hstep ev hev
    rcases List.mem_append.mp hev with h1 | h2
    · exact hstep pj d (List.mem_cons_self _ _) ev h1
    · exact ih _ (fun pj2 d2 hd2 => hstep pj2 d2 (List.mem_cons_of_mem _ hd2)) ev h2

theorem selectMain_ev (cfg : Config) (orc : Oracle) (av : List String) (v0 : String) :
    ∀ ev ∈ (selectMain cfg orc av v0).2,
      cfg.useLatest = false ∧ ev = Event.promptTarget (av.take 50) := by
  unfold selectMain
  by_cases h : cfg.useLatest
  · simp [h]
  · simp only [h, Bool.false_eq_true, if_false]
    intro ev hev
    rw [List.mem_singleton] at hev
    exact ⟨by simp [h], hev⟩

theorem isPromptEv_of_forDep {dep : String} {ev : Event}
    (h : isPromptForDep dep ev = true) : isPromptEv ev = true := by
  cases ev <;> simp [isPromptForDep, isPromptEv] at h ⊢

/-! ## Unfolding the run once target resolution has succeeded -/

theorem chosenTarget_eq (cfg : Config) (orc : Oracle) {meta : Metadata}
    {v0 : String} {vs : List String} (hsv : stableKeys meta = v0 :: vs) :
    chosenTarget cfg orc meta = (selectMain cfg orc (v0 :: vs) v0).1 := by
  simp [chosenTarget, hsv]

theorem run_eq (cfg : Config) (orc : Oracle) (pj0 : PackageJson) {meta : Metadata}
    {v0 : String} {vs : List String}
    (hm : orc.registry cfg.mainPkgName = some meta)
    (hsv : stableKeys meta = v0 :: vs) :
    run cfg orc pj0 =
      ((selectMain cfg orc (v0 :: vs) v0).2
        ++ (runDeps cfg orc (selectMain cfg orc (v0 :: vs) v0).1
              (getAllDependencies (manifestAfterTarget cfg orc meta pj0))
              (manifestAfterTarget cfg orc meta pj0)
              ((getAllDependencies (manifestAfterTarget cfg orc meta pj0)).map Prod.fst)).2
        ++ [Event.writeFile
              (runDeps cfg orc (selectMain cfg orc (v0 :: vs) v0).1
                (getAllDependencies (manifestAfterTarget cfg orc meta pj0))
                (manifestAfterTarget cfg orc meta pj0)
                ((getAllDependencies (manifestAfterTarget cfg orc meta pj0)).map Prod.fst)).1],
       some (runDeps cfg orc (selectMain cfg orc (v0 :: vs) v0).1
              (getAllDependencies (manifestAfterTarget cfg orc meta pj0))
              (manifestAfterTarget cfg orc meta pj0)
              ((getAllDependencies (manifestAfterTarget cfg orc meta pj0)).map Prod.fst)).1) := by
  have hmt : manifestAfterTarget cfg orc meta pj0 =
      applyTargetVersion cfg (selectMain cfg orc (v0 :: vs) v0).1 pj0 := by
    rw [manifestAfterTarget, chosenTarget_eq cfg orc hsv]
  rw [hmt]
  simp only [run, hm, hsv]

/-! ## Semver parser lemmas -/

theorem dropWhile_append_last {p : Char → Bool} {c : Char} (hc : p c = false) :
    ∀ l : List Char, ∃ xs, (l ++ [c]).dropWhile p = xs ++ [c] := by
  intro l
  induction l with
  | nil => exact ⟨[], by simp [List.dropWhile, hc]⟩
  | cons a t ih =>
    by_cases ha : p a
    · obtain ⟨xs, hxs⟩ := ih
      exact ⟨xs, by simp [List.dropWhile, ha, hxs]⟩
    · exact ⟨a :: t, by simp [List.dropWhile, ha]⟩

/-- A non-space head survives trimming. -/
theorem trimC_cons (c : Char) (hc : isSpaceC c = false) (l : List Char) :
    ∃ r, trimC (c :: l) = c :: r := by
  unfold trimC
  rw [List.dropWhile_cons]
  simp only [hc, Bool.false_eq_true, if_false]
  rw [List.reverse_cons]
  obtain ⟨xs, hxs⟩ := dropWhile_append_last hc l.reverse
  rw [hxs, List.reverse_append]
  exact ⟨xs.reverse, rfl⟩

theorem stripV_cons {c : Char} (h : c ≠ 'v') (l : List Char) :
    stripV (c :: l) = c :: l := by
  unfold stripV
  split
  · next r heq =>
    injection heq with h1 h2
    exact absurd h1 h
  · rfl

theorem splitFirstC_cons {sep c : Char} (h : (c == sep) = false) (l : List Char) :
    splitFirstC sep (c :: l) =
      ((c :: (splitFirstC sep l).1, (splitFirstC sep l).2) :
        List Char × Option (List Char)) := by
  simp [splitFirstC, h]

theorem splitOnC_ne_nil (sep : Char) (l : List Char) : splitOnC sep l ≠ [] := by
  cases l with
  | nil => simp [splitOnC]
  | cons c rest =>
    unfold splitOnC
    by_cases h : c == sep
    · simp [h]
    · simp only [h, Bool.false_eq_true, if_false]
      split
      · simp
      · simp

theorem splitOnC_cons (sep c : Char) (h : (c == sep) = false) (l : List Char) :
    ∃ h2 t2, splitOnC sep l = h2 :: t2 ∧ splitOnC sep (c :: l) = (c :: h2) :: t2 := by
  rcases hs : splitOnC sep l with _ | ⟨h2, t2⟩
  · exact absurd hs (splitOnC_ne_nil sep l)
  · refine ⟨h2, t2, rfl, ?_⟩
    unfold splitOnC
    rw [hs]
    simp [h]

theorem parseNumC_not_digit {c : Char} (h : isDigitC c = false) (l : List Char) :
    parseNumC (c :: l) = none := by
  simp [parseNumC, List.all_cons, h]

/-- A string starting with `^` never parses as a semantic version. -/
theorem parseSemVerC_caret (t : List Char) : parseSemVerC ('^' :: t) = none := by
  obtain ⟨r, hr⟩ := trimC_cons '^' (by decide) t
  unfold parseSemVerC
  rw [hr]
  dsimp only
  rw [stripV_cons (by decide), splitFirstC_cons (by decide)]
  dsimp only
  split
  · rw [splitFirstC_cons (by decide)]
    dsimp only
    obtain ⟨h2, t2, _, hsp⟩ := splitOnC_cons '.' '^' (by decide) _
    rw [hsp]
    split
    · next pre a b c hpre heq =>
      obtain ⟨ha, -⟩ := List.cons.injEq .. ▸ heq
      rw [← ha, parseNumC_not_digit (by decide)]
      rfl
    · rfl
  · rfl

theorem parseSemVer_caret_none {v : String} (h : v.data.head? = some '^') :
    parseSemVer v = none := by
  rcases hd : v.data with _ | ⟨c, t⟩
  · rw [hd] at h; simp at h
  · rw [hd] at h
    simp only [List.head?_cons, Option.some.injEq] at h
    subst h
    unfold parseSemVer
    rw [hd]
    exact parseSemVerC_caret t

/-- Every stable version string (as the classifier accepts them) is free of a
leading caret. -/
theorem caretLead_eq_false_of_stable {v : String} (h : isStableKey v = true) :
    caretLead v = false := by
  by_cases hc : caretLead v
  · exfalso
    have hh : v.data.head? = some '^' := by
      simpa [caretLead] using hc
    rw [isStableKey, parseSemVer_caret_none hh] at h
    exact Bool.noConfusion h
  · simpa using hc

/-! ## Facts about the version classifier and evaluator -/

theorem stableKeys_stable {m : Metadata} {v : String} (h : v ∈ stableKeys m) :
    isStableKey v = true := by
  rw [stableKeys, List.mem_reverse] at h
  exact (List.mem_filter.mp h).2

theorem parseRange_empty : parseRange "" = some [[]] := rfl

/-- A stable version satisfies the empty range (node-semver treats `""` as
`*`). -/
theorem satisfies_empty {v : String} (h : isStableKey v = true) :
    satisfies v "" = true := by
  rw [isStableKey] at h
  rcases hp : parseSemVer v with _ | sv
  · rw [hp] at h; exact Bool.noConfusion h
  · rw [hp] at h
    have hpre : sv.pre = [] := by simpa using h
    rw [satisfies, hp, parseRange_empty]
    simp [preAllowed, hpre]

/-- The first list element past a prefix of failures is what `find?` finds. -/
theorem find?_of_first {α : Type} (p : α → Bool) :
    ∀ (l : List α) (i : Nat) (v : α), l[i]? = some v → p v = true →
      (∀ w ∈ l.take i, p w = false) → l.find? p = some v := by
  intro l
  induction l with
  | nil => intro i v hv; simp at hv
  | cons a t ih =>
    intro i v hv hpv hpre
    cases i with
    | zero =>
      simp only [List.getElem?_cons_zero, Option.some.injEq] at hv
      subst hv
      simp [List.find?_cons, hpv]
    | succ j =>
      have ha : p a = false := hpre a (by simp [List.take_succ_cons])
      rw [List.find?_cons, ha]
      exact ih j v (by simpa using hv) hpv fun w hw =>
        hpre w (by simp [List.take_succ_cons, hw])

/-! ## Key-set lemmas (for the frame-effect claim) -/

theorem mem_keysOf_of_truthy {o : Option Obj} {k : String}
    (h : truthyGet o k = true) : k ∈ keysOf o := by
  obtain ⟨l, s, hl, hg, -⟩ := exists_of_truthy h
  subst hl
  exact (objGet_isSome_iff_mem_keys l k).mp (by simp [hg])

theorem keysOf_setIn_truthy {o : Option Obj} {k : String} (v : String)
    (h : truthyGet o k = true) : keysOf (setIn o k v) = keysOf o := by
  obtain ⟨l, s, hl, hg, -⟩ := exists_of_truthy h
  subst hl
  simp only [setIn, Option.map_some', keysOf, Option.getD_some]
  rw [keys_objSet]
  simp [hg]

theorem keys_processDep (cfg : Config) (orc : Oracle) (s : String) (ad : Obj)
    (pj : PackageJson) (d : String) :
    keysOf ((processDep cfg orc s ad pj d).1).dependencies = keysOf pj.dependencies ∧
    keysOf ((processDep cfg orc s ad pj d).1).devDependencies = keysOf pj.devDependencies := by
  unfold processDep
  split
  · exact ⟨rfl, rfl⟩
  · split
    · exact ⟨rfl, rfl⟩
    · dsimp only
      split
      · exact ⟨rfl, rfl⟩
      · split
        · exact ⟨rfl, rfl⟩
        · dsimp only
          split
          · next htr => exact ⟨keysOf_setIn_truthy _ htr, rfl⟩
          · split
            · next htr => exact ⟨rfl, keysOf_setIn_truthy _ htr⟩
            · exact ⟨rfl, rfl⟩

theorem keys_runDeps (cfg : Config) (orc : Oracle) (s : String) (ad : Obj) :
    ∀ (ds : List String) (pj : PackageJson),
      keysOf ((runDeps cfg orc s ad pj ds).1).dependencies = keysOf pj.dependencies ∧
      keysOf ((runDeps cfg orc s ad pj ds).1).devDependencies = keysOf pj.devDependencies := by
  intro ds
  induction ds with
  | nil => intro pj; exact ⟨rfl, rfl⟩
  | cons d t ih =>
    intro pj
    have h1 := keys_processDep cfg orc s ad pj d
    have h2 := ih (processDep cfg orc s ad pj d).1
    exact ⟨h2.1.trans h1.1, h2.2.trans h1.2⟩

theorem keys_applyTarget (cfg : Config) (s : String) (pj : PackageJson) :
    keysOf ((applyTargetVersion cfg s pj).devDependencies) = keysOf pj.devDependencies ∧
    (keysOf ((applyTargetVersion cfg s pj).dependencies) = keysOf pj.dependencies ∨
      keysOf ((applyTargetVersion cfg s pj).dependencies) =
        keysOf pj.dependencies ++ [cfg.mainPkgName]) ∧
    (cfg.mainPkgName ∉ keysOf pj.dependencies → cfg.mainPkgName ∉ keysOf pj.devDependencies →
      keysOf ((applyTargetVersion cfg s pj).dependencies) =
        keysOf pj.dependencies ++ [cfg.mainPkgName]) := by
  unfold applyTargetVersion
  by_cases h1 : truthyGet pj.dependencies cfg.mainPkgName = true
  · rw [if_pos h1]
    exact ⟨rfl, Or.inl (keysOf_setIn_truthy _ h1),
      fun hmem _ => absurd (mem_keysOf_of_truthy h1) hmem⟩
  · rw [if_neg h1]
    by_cases h2 : truthyGet pj.devDependencies cfg.mainPkgName = true
    · rw [if_pos h2]
      exact ⟨keysOf_setIn_truthy _ h2, Or.inl rfl,
        fun _ hmem => absurd (mem_keysOf_of_truthy h2) hmem⟩
    · rw [if_neg h2]
      refine ⟨rfl, ?_, ?_⟩
      · simp only [keysOf, Option.getD_some]
        rw [keys_objSet]
        by_cases hp : (objGet (pj.dependencies.getD []) cfg.mainPkgName).isSome
        · simp only [hp, if_true]
          exact Or.inl trivial
        · simp only [hp, Bool.false_eq_true, if_false]
          exact Or.inr trivial
      · intro hmem _
        simp only [keysOf, Option.getD_some]
        rw [keys_objSet]
        have hp : (objGet (pj.dependencies.getD []) cfg.mainPkgName).isSome = false := by
          by_cases hq : (objGet (pj.dependencies.getD []) cfg.mainPkgName).isSome
          · exact absurd ((objGet_isSome_iff_mem_keys _ _).mp hq) hmem
          · simpa using hq
        simp [hp]

/-! ## The update path of the dependency loop -/

/-- When the first stable version passes the peer check, it alone decides the
fast path. -/
theorem alreadyCompat_eq_head {main s r w0 : String} {depMeta : Metadata}
    {ws : List String} (hsk : stableKeys depMeta = w0 :: ws)
    (hpeer : peerOkB s main (infoOf depMeta w0) = true) :
    alreadyCompat main s r depMeta = satisfies w0 r := by
  rw [alreadyCompat, hsk, List.find?_cons]
  simp only [hpeer]

/-- A dependency that reaches the rewrite branch cannot have an empty
installed range (an empty range is satisfied by every stable version, which
would have taken the fast path). -/
theorem range_ne_empty_of_update {main s r c0 : String} {depMeta : Metadata}
    {cs : List String}
    (hac : alreadyCompat main s r depMeta = false)
    (hcv : compatibleVersions main s depMeta = c0 :: cs) : r ≠ "" := by
  intro he
  subst he
  have hc0 : c0 ∈ compatibleVersions main s depMeta := by
    rw [hcv]; exact List.mem_cons_self _ _
  rw [compatibleVersions, List.mem_filter] at hc0
  have hsome : ((stableKeys depMeta).find? fun v =>
      peerOkB s main (infoOf depMeta v)).isSome := by
    rw [List.find?_isSome]
    exact ⟨c0, hc0.1, hc0.2⟩
  obtain ⟨v, hv⟩ := Option.isSome_iff_exists.mp hsome
  have hvmem : v ∈ stableKeys depMeta := List.mem_of_find?_eq_some hv
  have hcontra : alreadyCompat main s "" depMeta = true := by
    rw [alreadyCompat, hv]
    exact satisfies_empty (stableKeys_stable hvmem)
  rw [hcontra] at hac
  exact Bool.noConfusion hac

/-- The merged lookup the loop uses, phrased through the two manifest
entries. -/
theorem installedRange_components (cfg : Config) (orc : Oracle) (meta : Metadata)
    (pj0 : PackageJson) (dep : String) :
    installedRangeOf cfg orc meta pj0 dep =
      ((match (entryPair (manifestAfterTarget cfg orc meta pj0) dep).1 with
        | some va => some ((entryPair (manifestAfterTarget cfg orc meta pj0) dep).2.getD va)
        | none => (entryPair (manifestAfterTarget cfg orc meta pj0) dep).2).getD "") := by
  unfold installedRangeOf getAllDependencies
  rw [objGet_spreadMerge]
  simp only [entryPair, bind_objGet_getD]

theorem merged_empty_of_falsy {a b : Option String}
    (h1 : truthyVal a = false) (h2 : truthyVal b = false) :
    ((match a with
      | some va => some (b.getD va)
      | none => b).getD "") = "" := by
  cases a with
  | none =>
    cases b with
    | none => rfl
    | some s =>
      have : s = "" := by simpa [truthyVal] using h2
      simp [this]
  | some va =>
    have hva : va = "" := by simpa [truthyVal] using h1
    cases b with
    | none => simp [hva]
    | some s =>
      have : s = "" := by simpa [truthyVal] using h2
      simp [this]

/-- Under `--autoupdate`, the replacement for an incompatible dependency is
the newest compatible version. -/
theorem chosenCompatible_auto {cfg : Config} (orc : Oracle) (dep c0 : String)
    (cs : List String) (h : cfg.autoUpdate = true) :
    chosenCompatible cfg orc dep (c0 :: cs) = c0 := by
  simp [chosenCompatible, h]

/-- The full rewrite branch of one loop iteration (lines 161-188), with the
selected replacement and the emitted events spelled out. -/
theorem processDep_update (cfg : Config) (orc : Oracle) (s : String) (ad : Obj)
    (pj : PackageJson) {dep : String} {depMeta : Metadata} {c0 : String}
    {cs : List String}
    (hne : dep ≠ cfg.mainPkgName) (hreg : orc.registry dep = some depMeta)
    (hac : alreadyCompat cfg.mainPkgName s ((objGet ad dep).getD "") depMeta = false)
    (hcv : compatibleVersions cfg.mainPkgName s depMeta = c0 :: cs) :
    processDep cfg orc s ad pj dep =
      ((if truthyGet pj.dependencies dep then
          { pj with dependencies := setIn pj.dependencies dep (chosenCompatible cfg orc dep (c0 :: cs)) }
        else if truthyGet pj.devDependencies dep then
          { pj with devDependencies := setIn pj.devDependencies dep (chosenCompatible cfg orc dep (c0 :: cs)) }
        else pj),
       if cfg.autoUpdate then [] else [Event.promptDep dep ((c0 :: cs).take 20)]) := by
  simp only [processDep, beq_eq_false_iff_ne.mpr hne, Bool.false_eq_true, if_false,
    hreg, hac, hcv]
  by_cases ha : cfg.autoUpdate <;> simp [ha, chosenCompatible]

/-- Entry state of one package after the whole run, when its evaluation takes
the rewrite branch. -/
theorem run_entry_update (cfg : Config) (orc : Oracle) (pj0 : PackageJson)
    {meta : Metadata} {v0 : String} {vs : List String} {dep : String}
    {depMeta : Metadata} {c0 : String} {cs : List String}
    (hm : orc.registry cfg.mainPkgName = some meta)
    (hsv : stableKeys meta = v0 :: vs)
    (hne : dep ≠ cfg.mainPkgName)
    (hreg : orc.registry dep = some depMeta)
    (hmem : dep ∈ (getAllDependencies (manifestAfterTarget cfg orc meta pj0)).map Prod.fst)
    (hnd : ((getAllDependencies (manifestAfterTarget cfg orc meta pj0)).map Prod.fst).Nodup)
    (hac : alreadyCompat cfg.mainPkgName (chosenTarget cfg orc meta)
      (installedRangeOf cfg orc meta pj0 dep) depMeta = false)
    (hcv : compatibleVersions cfg.mainPkgName (chosenTarget cfg orc meta) depMeta
      = c0 :: cs) :
    ((run cfg orc pj0).2.map fun pjF => entryPair pjF dep) =
      some (if truthyVal (entryPair pj0 dep).1 then
              (some (chosenCompatible cfg orc dep (c0 :: cs)), (entryPair pj0 dep).2)
            else ((entryPair pj0 dep).1,
              some (chosenCompatible cfg orc dep (c0 :: cs)))) := by
  have hct := chosenTarget_eq cfg orc hsv
  have hpj1 : manifestAfterTarget cfg orc meta pj0 =
      applyTargetVersion cfg (selectMain cfg orc (v0 :: vs) v0).1 pj0 := by
    rw [manifestAfterTarget, hct]
  have he0 : entryPair (manifestAfterTarget cfg orc meta pj0) dep = entryPair pj0 dep := by
    rw [hpj1]
    exact entryPair_applyTarget_ne cfg _ pj0 hne
  have hrange : installedRangeOf cfg orc meta pj0 dep =
      (objGet (getAllDependencies (manifestAfterTarget cfg orc meta pj0)) dep).getD "" := rfl
  have hac2 : alreadyCompat cfg.mainPkgName (selectMain cfg orc (v0 :: vs) v0).1
      ((objGet (getAllDependencies (manifestAfterTarget cfg orc meta pj0)) dep).getD "")
      depMeta = false := by
    rw [← hrange, ← hct]
    exact hac
  have hcv2 : compatibleVersions cfg.mainPkgName (selectMain cfg orc (v0 :: vs) v0).1
      depMeta = c0 :: cs := by
    rw [← hct]
    exact hcv
  -- the rewrite goes to `dependencies` when truthily there, else to
  -- `devDependencies`, which must then be truthy
  have hdev : truthyVal (entryPair pj0 dep).1 = false →
      truthyVal (entryPair pj0 dep).2 = true := by
    intro h1
    by_cases h2 : truthyVal (entryPair pj0 dep).2 = true
    · exact h2
    · exfalso
      have h2f : truthyVal (entryPair pj0 dep).2 = false := by simpa using h2
      have hre : installedRangeOf cfg orc meta pj0 dep = "" := by
        rw [installedRange_components, he0]
        exact merged_empty_of_falsy h1 h2f
      exact range_ne_empty_of_update hac hcv hre
  -- one loop step rewrites the entry as claimed
  have hstep : ∀ pj2 : PackageJson, entryPair pj2 dep = entryPair pj0 dep →
      entryPair (processDep cfg orc (selectMain cfg orc (v0 :: vs) v0).1
        (getAllDependencies (manifestAfterTarget cfg orc meta pj0)) pj2 dep).1 dep =
      (if truthyVal (entryPair pj0 dep).1 then
        (some (chosenCompatible cfg orc dep (c0 :: cs)), (entryPair pj0 dep).2)
      else ((entryPair pj0 dep).1, some (chosenCompatible cfg orc dep (c0 :: cs)))) := by
    intro pj2 h2
    rw [processDep_update cfg orc _ _ pj2 hne hreg hac2 hcv2]
    have htr1 : truthyGet pj2.dependencies dep = truthyVal (entryPair pj2 dep).1 := rfl
    have htr2 : truthyGet pj2.devDependencies dep = truthyVal (entryPair pj2 dep).2 := rfl
    by_cases h1 : truthyVal (entryPair pj0 dep).1 = true
    · rw [if_pos h1]
      have htr : truthyGet pj2.dependencies dep = true := by rw [htr1, h2]; exact h1
      rw [if_pos htr]
      obtain ⟨l, s2, hl, -, -⟩ := exists_of_truthy htr
      have hset : entryPair { pj2 with dependencies := setIn pj2.dependencies dep (chosenCompatible cfg orc dep (c0 :: cs)) } dep =
          (some (chosenCompatible cfg orc dep (c0 :: cs)), (entryPair pj2 dep).2) := by
        simp only [entryPair, hl]
        rw [bind_setIn_self]
      rw [hset, h2]
    · have h1f : truthyVal (entryPair pj0 dep).1 = false := by simpa using h1
      rw [if_neg h1]
      have htr : truthyGet pj2.dependencies dep = false := by rw [htr1, h2]; exact h1f
      rw [if_neg (by simp [htr])]
      have htrd : truthyGet pj2.devDependencies dep = true := by
        rw [htr2, h2]; exact hdev h1f
      rw [if_pos htrd]
      obtain ⟨l, s2, hl, -, -⟩ := exists_of_truthy htrd
      have hset : entryPair { pj2 with devDependencies := setIn pj2.devDependencies dep (chosenCompatible cfg orc dep (c0 :: cs)) } dep =
          ((entryPair pj2 dep).1, some (chosenCompatible cfg orc dep (c0 :: cs))) := by
        simp only [entryPair, hl]
        rw [bind_setIn_self]
      rw [hset, h2]
  rw [run_eq cfg orc pj0 hm hsv]
  simp only [Option.map_some']
  congr 1
  exact runDeps_entry_once cfg orc _ _ hstep _ _ hnd hmem he0

/-! ## Abort paths and event classification of the whole run -/

/-- A registry failure for the target package aborts the run before any
manifest write (the `await` of line 98 rejects). -/
theorem run_fail_registry (cfg : Config) (orc : Oracle) (pj0 : PackageJson)
    (hm : orc.registry cfg.mainPkgName = none) :
    run cfg orc pj0 = ([], none) := by
  simp [run, hm]

/-- An empty stable list for the target aborts the run before any manifest
write (lines 103-106). -/
theorem run_fail_empty (cfg : Config) (orc : Oracle) (pj0 : PackageJson)
    {meta : Metadata} (hm : orc.registry cfg.mainPkgName = some meta)
    (hsk : stableKeys meta = []) :
    run cfg orc pj0 = ([], none) := by
  simp [run, hm, hsk]

/-- The dependency loop never writes the manifest file. -/
theorem runDeps_no_write (cfg : Config) (orc : Oracle) (s : String) (ad : Obj)
    (ds : List String) (pj : PackageJson) :
    ∀ ev ∈ (runDeps cfg orc s ad pj ds).2, isWriteEv ev = false := by
  refine runDeps_ev cfg orc s ad (fun e => isWriteEv e = false) ds pj ?_
  intro pj2 d hd e he
  rcases processDep_ev cfg orc s ad pj2 d e he with hsf | ⟨-, ch, hpd⟩
  · rw [hsf]; rfl
  · rw [hpd]; rfl

/-- Under `--autoupdate` the dependency loop never prompts. -/
theorem runDeps_no_prompt_auto {cfg : Config} (orc : Oracle) (s : String)
    (ad : Obj) (ha : cfg.autoUpdate = true) (ds : List String) (pj : PackageJson) :
    ∀ ev ∈ (runDeps cfg orc s ad pj ds).2, isPromptEv ev = false := by
  refine runDeps_ev cfg orc s ad (fun e => isPromptEv e = false) ds pj ?_
  intro pj2 d hd e he
  rcases processDep_ev cfg orc s ad pj2 d e he with hsf | ⟨hf, -⟩
  · rw [hsf]; rfl
  · rw [ha] at hf
    exact Bool.noConfusion hf

/-- Entries of the target package right after `ApplyTargetVersion`
(lines 122-131), for each placement case. -/
theorem entryPair_applyTarget_self (cfg : Config) (s : String) (pj : PackageJson) :
    entryPair (applyTargetVersion cfg s pj) cfg.mainPkgName =
      (if truthyVal (entryPair pj cfg.mainPkgName).1 then
        (some (if cfg.useLatest then "^" ++ s else s), (entryPair pj cfg.mainPkgName).2)
      else if truthyVal (entryPair pj cfg.mainPkgName).2 then
        ((entryPair pj cfg.mainPkgName).1, some (if cfg.useLatest then "^" ++ s else s))
      else (some (if cfg.useLatest then "^" ++ s else s), (entryPair pj cfg.mainPkgName).2)) := by
  have htr1 : truthyGet pj.dependencies cfg.mainPkgName
      = truthyVal (entryPair pj cfg.mainPkgName).1 := rfl
  have htr2 : truthyGet pj.devDependencies cfg.mainPkgName
      = truthyVal (entryPair pj cfg.mainPkgName).2 := rfl
  unfold applyTargetVersion
  by_cases h1 : truthyVal (entryPair pj cfg.mainPkgName).1 = true
  · rw [if_pos (htr1.trans h1), if_pos h1]
    obtain ⟨l, s2, hl, -, -⟩ := exists_of_truthy (htr1.trans h1)
    simp only [entryPair, hl]
    rw [bind_setIn_self]
  · have h1f : truthyVal (entryPair pj cfg.mainPkgName).1 = false := by simpa using h1
    rw [if_neg (by rw [htr1, h1f]; exact Bool.false_ne_true), if_neg h1]
    by_cases h2 : truthyVal (entryPair pj cfg.mainPkgName).2 = true
    · rw [if_pos (htr2.trans h2), if_pos h2]
      obtain ⟨l, s2, hl, -, -⟩ := exists_of_truthy (htr2.trans h2)
      simp only [entryPair, hl]
      rw [bind_setIn_self]
    · have h2f : truthyVal (entryPair pj cfg.mainPkgName).2 = false := by simpa using h2
      rw [if_neg (by rw [htr2, h2f]; exact Bool.false_ne_true), if_neg h2]
      simp only [entryPair]
      rw [Option.some_bind, objGet_objSet_self, bind_objGet_getD]

/-- The dependency loop never touches the target package's entries (the
iteration for the target is skipped, every other one only writes its own
key). -/
theorem runDeps_entry_main (cfg : Config) (orc : Oracle) (s : String) (ad : Obj)
    (ds : List String) (pj : PackageJson) :
    entryPair (runDeps cfg orc s ad pj ds).1 cfg.mainPkgName
      = entryPair pj cfg.mainPkgName := by
  refine runDeps_entry_const cfg orc s ad cfg.mainPkgName ds pj ?_
  intro pj2 d hd
  by_cases hdm : d = cfg.mainPkgName
  · subst hdm
    rw [processDep_self]
  · exact entryPair_processDep_ne cfg orc s ad pj2 d fun he => hdm he.symm

/-! ## Claim theorems -/

/-- C1, counterexample: the derived stable version list is NOT sorted
descending by semantic precedence for every fetched metadata — the code only
reverses the metadata's key order (lines 99-101, 141-143), so a registry
document listing `2.0.0` before `1.0.0` yields the ascending list
`["1.0.0", "2.0.0"]`. -/
theorem C1_counterexample :
    stableKeys metaOutOfOrderW = ["1.0.0", "2.0.0"] ∧
    cmpVerStr "1.0.0" "2.0.0" = Ordering.lt ∧
    ¬ (stableKeys metaOutOfOrderW).Pairwise
        (fun a b => cmpVerStr a b = Ordering.gt) := by
  refine ⟨by decide, by decide, ?_⟩
  intro hp
  have h12 := (List.pairwise_cons.mp (by rw [show stableKeys metaOutOfOrderW
    = ["1.0.0", "2.0.0"] from by decide] at hp; exact hp)).1 "2.0.0"
    (List.mem_singleton.mpr rfl)
  revert h12
  decide

/-- C1 (amended): every element of the derived stable version list parses as
a valid semantic version with no prerelease component; and the list — the
reverse of the metadata's stable key order — is sorted strictly descending by
semantic precedence whenever the metadata lists its stable keys in ascending
precedence order (but not in general). -/
theorem C1_stable_version_list (m : Metadata) :
    (∀ v ∈ stableKeys m, isStableKey v = true) ∧
    (((m.versions.map Prod.fst).filter isStableKey).Pairwise
        (fun a b => cmpVerStr b a = Ordering.gt) →
      (stableKeys m).Pairwise fun a b => cmpVerStr a b = Ordering.gt) := by
  constructor
  · intro v hv
    exact stableKeys_stable hv
  · intro h
    rw [stableKeys]
    exact List.pairwise_reverse.mpr h

/-- Witness for C1 on a registry document listing versions in ascending
order. -/
theorem C1_stable_version_list_witness :
    (∀ v ∈ stableKeys metaTargetW, isStableKey v = true) ∧
    (stableKeys metaTargetW).Pairwise (fun a b => cmpVerStr a b = Ordering.gt) :=
  ⟨(C1_stable_version_list metaTargetW).1,
   (C1_stable_version_list metaTargetW).2 (by decide)⟩

/-- C2, counterexample: the already-compatible fast path is NOT decided
solely by the newest stable version. Here the newest version `2.0.0` fails
the peer check against the chosen target, yet the loop of lines 145-154 moves
on to `1.0.0`, which passes the peer check and satisfies the installed range,
so the dependency is marked already-compatible. -/
theorem C2_counterexample :
    stableKeys metaOldPeerW = ["2.0.0", "1.0.0"] ∧
    peerOkB "19.1.0" "react" (infoOf metaOldPeerW "2.0.0") = false ∧
    alreadyCompat "react" "19.1.0" "^1.0.0" metaOldPeerW = true := by
  exact ⟨by decide, by decide, by decide⟩

/-- C2 (amended): the fast path is decided solely by the newest stable
version that passes the peer check — the first element of the stable list
whose peer constraint on the target is absent or satisfied. If no stable
version passes the peer check the fast path is not taken; if the first
passing version is at index `i`, the dependency is marked already-compatible
exactly when that version satisfies the installed range, and no other version
participates in the decision. -/
theorem C2_fast_path_first_peer_ok (main target range : String) (meta : Metadata) :
    ((∀ w ∈ stableKeys meta, peerOkB target main (infoOf meta w) = false) →
      alreadyCompat main target range meta = false) ∧
    (∀ (i : Nat) (v : String), (stableKeys meta)[i]? = some v →
      peerOkB target main (infoOf meta v) = true →
      (∀ w ∈ (stableKeys meta).take i, peerOkB target main (infoOf meta w) = false) →
      alreadyCompat main target range meta = satisfies v range) := by
  constructor
  · intro h
    rw [alreadyCompat, List.find?_eq_none.mpr fun x hx => by simp [h x hx]]
  · intro i v hv hpv hpre
    rw [alreadyCompat, find?_of_first _ (stableKeys meta) i v hv hpv hpre]

/-- Witness for C2: a metadata with no peer-passing version is never
already-compatible, and one whose second version is the first peer-passing
one is decided by that version. -/
theorem C2_fast_path_first_peer_ok_witness :
    alreadyCompat "react" "19.1.0" "^1.0.0" metaNoPeerOkW = false ∧
    alreadyCompat "react" "19.1.0" "^1.0.0" metaOldPeerW
      = satisfies "1.0.0" "^1.0.0" :=
  ⟨(C2_fast_path_first_peer_ok "react" "19.1.0" "^1.0.0" metaNoPeerOkW).1
      (by decide),
   (C2_fast_path_first_peer_ok "react" "19.1.0" "^1.0.0" metaOldPeerW).2
      1 "1.0.0" (by decide) (by decide) (by decide)⟩

/-- C6: a registry fetch failure (or evaluation error) for a single
dependency is non-fatal and isolated: that iteration leaves the whole
in-memory manifest untouched, logs the failure, and the loop goes on — and
whenever target resolution succeeded, the run still reaches its final
manifest write, whatever the registry answers for the dependencies. -/
theorem C6_dependency_failure_isolated (cfg : Config) (orc : Oracle) (s : String)
    (ad : Obj) (pj pj0 : PackageJson) (dep : String) (meta : Metadata) :
    (dep ≠ cfg.mainPkgName → orc.registry dep = none →
      processDep cfg orc s ad pj dep = (pj, [Event.softFail dep])) ∧
    (orc.registry cfg.mainPkgName = some meta → stableKeys meta ≠ [] →
      ((run cfg orc pj0).2).isSome = true) := by
  constructor
  · exact fun hne hreg => processDep_softFail cfg orc s ad pj hne hreg
  · intro hm hnz
    rcases hsk : stableKeys meta with _ | ⟨v0, vs⟩
    · exact absurd hsk hnz
    · rw [run_eq cfg orc pj0 hm hsk]
      rfl

/-- Witness for C6: the fetch of `left-pad` fails, its iteration only logs,
and the run still writes the manifest. -/
theorem C6_dependency_failure_isolated_witness :
    processDep cfgW orcW "19.1.0" (getAllDependencies pjFailW) pjFailW "left-pad"
      = (pjFailW, [Event.softFail "left-pad"]) ∧
    ((run cfgW orcW pjFailW).2).isSome = true :=
  ⟨(C6_dependency_failure_isolated cfgW orcW "19.1.0" (getAllDependencies pjFailW)
      pjFailW pjFailW "left-pad" metaTargetW).1 (by decide) (by decide),
   (C6_dependency_failure_isolated cfgW orcW "19.1.0" (getAllDependencies pjFailW)
      pjFailW pjFailW "left-pad" metaTargetW).2 (by decide) (by decide)⟩

/-- C7: an unattended run (`--latest` and `--autoupdate`) never reaches an
operator prompt, for every registry behaviour and every manifest: the
target-selection prompt of lines 110-120 and the per-dependency prompt of
lines 171-180 are both skipped by construction. -/
theorem C7_unattended_never_prompts (cfg : Config) (orc : Oracle)
    (pj0 : PackageJson) (hl : cfg.useLatest = true) (ha : cfg.autoUpdate = true) :
    (run cfg orc pj0).1.filter isPromptEv = [] := by
  rcases hm : orc.registry cfg.mainPkgName with _ | meta
  · rw [run_fail_registry cfg orc pj0 hm]
    rfl
  · rcases hsk : stableKeys meta with _ | ⟨v0, vs⟩
    · rw [run_fail_empty cfg orc pj0 hm hsk]
      rfl
    · rw [run_eq cfg orc pj0 hm hsk]
      refine List.filter_eq_nil_iff.mpr fun ev hev => ?_
      suffices h : isPromptEv ev = false by simp [h]
      rcases List.mem_append.mp hev with h1 | h2
      · rcases List.mem_append.mp h1 with h1a | h1b
        · have hsel := (selectMain_ev cfg orc (v0 :: vs) v0 ev h1a).1
          rw [hl] at hsel
          exact Bool.noConfusion hsel
        · exact runDeps_no_prompt_auto orc _ _ ha _ _ ev h1b
      · rw [List.mem_singleton.mp h2]
        rfl

/-- Witness for C7 on the end-to-end example manifest. -/
theorem C7_unattended_never_prompts_witness :
    (run cfgW orcW pjW).1.filter isPromptEv = [] :=
  C7_unattended_never_prompts cfgW orcW pjW rfl rfl

/-- C8: in every run the manifest file is written at most once; when the run
completes, the single write is the last event of the trace and carries
exactly the fully updated in-memory manifest, so an externally aborted run
never persists a partial state. -/
theorem C8_single_write_at_end (cfg : Config) (orc : Oracle) (pj0 : PackageJson) :
    (run cfg orc pj0).1.filter isWriteEv =
      ((run cfg orc pj0).2.map Event.writeFile).toList ∧
    (run cfg orc pj0).1.getLast? = (run cfg orc pj0).2.map Event.writeFile := by
  rcases hm : orc.registry cfg.mainPkgName with _ | meta
  · rw [run_fail_registry cfg orc pj0 hm]
    exact ⟨rfl, rfl⟩
  · rcases hsk : stableKeys meta with _ | ⟨v0, vs⟩
    · rw [run_fail_empty cfg orc pj0 hm hsk]
      exact ⟨rfl, rfl⟩
    · rw [run_eq cfg orc pj0 hm hsk]
      constructor
      · simp only [List.filter_append]
        have h1 : (selectMain cfg orc (v0 :: vs) v0).2.filter isWriteEv = [] := by
          refine List.filter_eq_nil_iff.mpr fun ev hev => ?_
          rw [(selectMain_ev cfg orc (v0 :: vs) v0 ev hev).2]
          simp [isWriteEv]
        rw [h1, List.filter_eq_nil_iff.mpr fun ev hev => by
          simp [runDeps_no_write cfg orc _ _ _ _ ev hev]]
        rfl
      · rw [List.getLast?_concat]
        rfl

/-- C3: a dependency whose installed range is satisfied by its newest stable
version, when that newest version carries no peer constraint on the target or
one satisfied by the chosen target version, is marked already-compatible and
its manifest entries are byte-identical before and after the run. -/
theorem C3_compatible_dependency_untouched (cfg : Config) (orc : Oracle)
    (pj0 : PackageJson) (meta depMeta : Metadata) (v0 : String) (vs : List String)
    (dep w0 : String) (ws : List String)
    (hm : orc.registry cfg.mainPkgName = some meta)
    (hsv : stableKeys meta = v0 :: vs)
    (hne : dep ≠ cfg.mainPkgName)
    (hreg : orc.registry dep = some depMeta)
    (hskd : stableKeys depMeta = w0 :: ws)
    (hpeer : peerOkB (chosenTarget cfg orc meta) cfg.mainPkgName (infoOf depMeta w0) = true)
    (hsat : satisfies w0 (installedRangeOf cfg orc meta pj0 dep) = true) :
    alreadyCompat cfg.mainPkgName (chosenTarget cfg orc meta)
      (installedRangeOf cfg orc meta pj0 dep) depMeta = true ∧
    ((run cfg orc pj0).2.map fun pjF => entryPair pjF dep) = some (entryPair pj0 dep) := by
  have hct := chosenTarget_eq cfg orc hsv
  have hac : alreadyCompat cfg.mainPkgName (chosenTarget cfg orc meta)
      (installedRangeOf cfg orc meta pj0 dep) depMeta = true := by
    rw [alreadyCompat_eq_head hskd hpeer]
    exact hsat
  refine ⟨hac, ?_⟩
  rw [run_eq cfg orc pj0 hm hsv]
  simp only [Option.map_some']
  congr 1
  have hstep : ∀ (pj2 : PackageJson) (d : String),
      d ∈ (getAllDependencies (manifestAfterTarget cfg orc meta pj0)).map Prod.fst →
      entryPair (processDep cfg orc (selectMain cfg orc (v0 :: vs) v0).1
        (getAllDependencies (manifestAfterTarget cfg orc meta pj0)) pj2 d).1 dep =
      entryPair pj2 dep := by
    intro pj2 d hd
    by_cases hdd : d = dep
    · subst hdd
      rw [processDep_compat cfg orc _ _ pj2 hne hreg (by rw [← hct]; exact hac)]
    · exact entryPair_processDep_ne cfg orc _ _ pj2 d fun he => hdd he.symm
  rw [runDeps_entry_const cfg orc _ _ dep _ _ hstep]
  rw [manifestAfterTarget, entryPair_applyTarget_ne cfg _ pj0 hne]

/-- Witness for C3: `lodash@^1.0.0` with newest stable `1.2.0` and no peer
constraint survives the run untouched. -/
theorem C3_compatible_dependency_untouched_witness :
    alreadyCompat "react" (chosenTarget cfgW orcW metaTargetW)
      (installedRangeOf cfgW orcW metaTargetW pjFreeW "lodash") metaFreeW = true ∧
    ((run cfgW orcW pjFreeW).2.map fun pjF => entryPair pjF "lodash")
      = some (entryPair pjFreeW "lodash") :=
  C3_compatible_dependency_untouched cfgW orcW pjFreeW metaTargetW metaFreeW
    "19.1.0" ["18.2.0"] "lodash" "1.2.0" []
    (by decide) (by decide) (by decide) (by decide) (by decide) (by decide) (by decide)

/-- C5, counterexample: the target's replacement is NOT always written to
`devDependencies` when the target is present there and absent from
`dependencies`. With the legal manifest entry `"react": ""` (an empty range)
in `devDependencies`, the truthiness checks of lines 124/126 skip both
classes, so the caret version is created under `dependencies` and the
`devDependencies` entry keeps its old value. -/
theorem C5_counterexample :
    objGet ([] : Obj) "react" = none ∧
    objGet [("react", "")] "react" = some "" ∧
    ((run cfgW orcW pjFalsyW).2.map fun pjF => entryPair pjF "react")
      = some (some "^19.1.0", some "") ∧
    ((some "^19.1.0", some "") : Option String × Option String)
      ≠ ((none : Option String), some "^19.1.0") := by
  exact ⟨rfl, by decide, by decide, by decide⟩

/-- C5 (amended): the chosen target version is written under `dependencies`
if the target occupies it with a truthy (non-empty) value, else under
`devDependencies` if truthily present there, and otherwise under
`dependencies` (created when absent, overwriting an empty-valued entry
otherwise); with `--latest` the written value is the caret-prefixed newest
stable version, and without it the exact operator-chosen version with no
prefix. -/
theorem C5_target_version_placement (cfg : Config) (orc : Oracle)
    (pj0 : PackageJson) (meta : Metadata) (v0 : String) (vs : List String)
    (hm : orc.registry cfg.mainPkgName = some meta)
    (hsv : stableKeys meta = v0 :: vs) :
    ((run cfg orc pj0).2.map fun pjF => entryPair pjF cfg.mainPkgName) =
      some (if truthyVal (entryPair pj0 cfg.mainPkgName).1 then
              (some (targetWriteValue cfg orc meta), (entryPair pj0 cfg.mainPkgName).2)
            else if truthyVal (entryPair pj0 cfg.mainPkgName).2 then
              ((entryPair pj0 cfg.mainPkgName).1, some (targetWriteValue cfg orc meta))
            else (some (targetWriteValue cfg orc meta), (entryPair pj0 cfg.mainPkgName).2)) ∧
    (cfg.useLatest = true → targetWriteValue cfg orc meta = "^" ++ v0) ∧
    (cfg.useLatest = false →
      targetWriteValue cfg orc meta = orc.pickTarget ((v0 :: vs).take 50)) := by
  have hct := chosenTarget_eq cfg orc hsv
  refine ⟨?_, ?_, ?_⟩
  · rw [run_eq cfg orc pj0 hm hsv]
    simp only [Option.map_some']
    congr 1
    rw [runDeps_entry_main, manifestAfterTarget, entryPair_applyTarget_self]
    rw [targetWriteValue]
  · intro hl
    rw [targetWriteValue, hct]
    simp [selectMain, hl]
  · intro hl
    rw [targetWriteValue, hct]
    simp [selectMain, hl]

/-- Witness for C5 on the end-to-end example: `react` sits in `dependencies`
and is rewritten there to the caret-prefixed newest stable version. -/
theorem C5_target_version_placement_witness :
    ((run cfgW orcW pjW).2.map fun pjF => entryPair pjF cfgW.mainPkgName)
      = some (some "^19.1.0", none) ∧
    targetWriteValue cfgW orcW metaTargetW = "^" ++ "19.1.0" := by
  have h := C5_target_version_placement cfgW orcW pjW metaTargetW "19.1.0" ["18.2.0"]
    (by decide) (by decide)
  refine ⟨?_, h.2.1 rfl⟩
  rw [h.1]
  decide

/-- C4: under `--autoupdate`, every dependency found incompatible whose
compatible-version set is non-empty has its manifest entry rewritten to
exactly the newest (first) entry of that set — written into `dependencies`
when truthily declared there, else into `devDependencies` — as an exact
caret-free version string, and no operator prompt is raised for it. -/
theorem C4_autoupdate_pins_newest (cfg : Config) (orc : Oracle) (pj0 : PackageJson)
    (meta depMeta : Metadata) (v0 : String) (vs : List String) (dep c0 : String)
    (cs : List String)
    (hauto : cfg.autoUpdate = true)
    (hm : orc.registry cfg.mainPkgName = some meta)
    (hsv : stableKeys meta = v0 :: vs)
    (hne : dep ≠ cfg.mainPkgName)
    (hreg : orc.registry dep = some depMeta)
    (hmem : dep ∈ (getAllDependencies (manifestAfterTarget cfg orc meta pj0)).map Prod.fst)
    (hnd : ((getAllDependencies (manifestAfterTarget cfg orc meta pj0)).map Prod.fst).Nodup)
    (hac : alreadyCompat cfg.mainPkgName (chosenTarget cfg orc meta)
      (installedRangeOf cfg orc meta pj0 dep) depMeta = false)
    (hcv : compatibleVersions cfg.mainPkgName (chosenTarget cfg orc meta) depMeta
      = c0 :: cs) :
    caretLead c0 = false ∧
    ((run cfg orc pj0).2.map fun pjF => entryPair pjF dep) =
      some (if truthyVal (entryPair pj0 dep).1 then (some c0, (entryPair pj0 dep).2)
            else ((entryPair pj0 dep).1, some c0)) ∧
    (run cfg orc pj0).1.filter (isPromptForDep dep) = [] := by
  refine ⟨?_, ?_, ?_⟩
  · have hc0 : c0 ∈ compatibleVersions cfg.mainPkgName (chosenTarget cfg orc meta) depMeta := by
      rw [hcv]
      exact List.mem_cons_self _ _
    rw [compatibleVersions, List.mem_filter] at hc0
    exact caretLead_eq_false_of_stable (stableKeys_stable hc0.1)
  · have h := run_entry_update cfg orc pj0 hm hsv hne hreg hmem hnd hac hcv
    rw [chosenCompatible_auto orc dep c0 cs hauto] at h
    exact h
  · rw [run_eq cfg orc pj0 hm hsv]
    refine List.filter_eq_nil_iff.mpr fun ev hev => ?_
    suffices h : isPromptForDep dep ev = false by simp [h]
    rcases List.mem_append.mp hev with h1 | h2
    · rcases List.mem_append.mp h1 with h1a | h1b
      · rw [(selectMain_ev cfg orc (v0 :: vs) v0 ev h1a).2]
        rfl
      · have hp := runDeps_no_prompt_auto orc _ _ hauto _ _ ev h1b
        by_cases hq : isPromptForDep dep ev = true
        · rw [isPromptEv_of_forDep hq] at hp
          exact Bool.noConfusion hp
        · simpa using hq
    · rw [List.mem_singleton.mp h2]
      rfl

/-- Witness for C4: incompatible `react-dom@18.2.0` is pinned to the newest
compatible `19.1.0` under `dependencies`, with no prompt. -/
theorem C4_autoupdate_pins_newest_witness :
    caretLead "19.1.0" = false ∧
    ((run cfgW orcW pjW).2.map fun pjF => entryPair pjF "react-dom")
      = some (some "19.1.0", none) ∧
    (run cfgW orcW pjW).1.filter (isPromptForDep "react-dom") = [] := by
  have h := C4_autoupdate_pins_newest cfgW orcW pjW metaTargetW metaDomW
    "19.1.0" ["18.2.0"] "react-dom" "19.1.0" [] rfl (by decide) (by decide)
    (by decide) (by decide) (by decide) (by decide) (by decide) (by decide)
  refine ⟨h.1, ?_, h.2.2⟩
  rw [h.2.1]
  decide

/-- C9, counterexample: a replacement for a package declared in both classes
is NOT always written back to the `dependencies` entry. With the legal entry
`"react-dom": ""` in `dependencies` and `"react-dom": "^17.0.0"` in
`devDependencies`, the truthiness check of line 184 skips the falsy
`dependencies` entry and line 187 writes the replacement into
`devDependencies`, changing it, while `dependencies` keeps `""`. -/
theorem C9_counterexample :
    objGet [("react", "18.2.0"), ("react-dom", "")] "react-dom" = some "" ∧
    objGet [("react-dom", "^17.0.0")] "react-dom" = some "^17.0.0" ∧
    ((run cfgW orcW pjFalsyDepW).2.map fun pjF => entryPair pjF "react-dom")
      = some (some "", some "19.1.0") ∧
    ((some "", some "19.1.0") : Option String × Option String)
      ≠ (some "19.1.0", some "^17.0.0") := by
  exact ⟨by decide, by decide, by decide, by decide⟩

/-- C9 (amended): when a package name appears in both `dependencies` and
`devDependencies`, the installed range the evaluator uses is the
`devDependencies` value (the later spread of lines 82-85 wins); a
replacement version is written back to the `dependencies` entry — leaving
`devDependencies` unchanged — when the `dependencies` value is non-empty
(truthy, line 184); when that value is the empty string, the replacement is
instead written to the `devDependencies` entry, leaving the `dependencies`
entry unchanged. -/
theorem C9_devdeps_range_deps_write (cfg : Config) (orc : Oracle) (pj0 : PackageJson)
    (meta depMeta : Metadata) (v0 : String) (vs : List String) (dep c0 : String)
    (cs : List String) (dobj vobj : Obj) (rd rv : String)
    (hm : orc.registry cfg.mainPkgName = some meta)
    (hsv : stableKeys meta = v0 :: vs)
    (hne : dep ≠ cfg.mainPkgName)
    (hreg : orc.registry dep = some depMeta)
    (hdep : pj0.dependencies = some dobj)
    (hgd : objGet dobj dep = some rd)
    (hdev : pj0.devDependencies = some vobj)
    (hgv : objGet vobj dep = some rv)
    (hnd : ((getAllDependencies (manifestAfterTarget cfg orc meta pj0)).map Prod.fst).Nodup)
    (hac : alreadyCompat cfg.mainPkgName (chosenTarget cfg orc meta) rv depMeta = false)
    (hcv : compatibleVersions cfg.mainPkgName (chosenTarget cfg orc meta) depMeta
      = c0 :: cs) :
    installedRangeOf cfg orc meta pj0 dep = rv ∧
    ((run cfg orc pj0).2.map fun pjF => entryPair pjF dep) =
      some (if truthyVal (some rd) then
              (some (chosenCompatible cfg orc dep (c0 :: cs)), some rv)
            else (some rd, some (chosenCompatible cfg orc dep (c0 :: cs)))) := by
  have he0 : entryPair pj0 dep = (some rd, some rv) := by
    simp [entryPair, hdep, hdev, hgd, hgv]
  have he1 : entryPair (manifestAfterTarget cfg orc meta pj0) dep = (some rd, some rv) := by
    rw [manifestAfterTarget, entryPair_applyTarget_ne cfg _ pj0 hne]
    exact he0
  have hr : installedRangeOf cfg orc meta pj0 dep = rv := by
    rw [installedRange_components, he1]
    rfl
  refine ⟨hr, ?_⟩
  have h1 : objGet ((manifestAfterTarget cfg orc meta pj0).dependencies.getD []) dep
      = some rd := by
    rw [← bind_objGet_getD]
    exact congrArg Prod.fst he1
  have h2 : objGet ((manifestAfterTarget cfg orc meta pj0).devDependencies.getD []) dep
      = some rv := by
    rw [← bind_objGet_getD]
    exact congrArg Prod.snd he1
  have hmv : objGet (getAllDependencies (manifestAfterTarget cfg orc meta pj0)) dep
      = some rv := by
    rw [getAllDependencies, objGet_spreadMerge, h1, h2]
    rfl
  have hmem : dep ∈ (getAllDependencies (manifestAfterTarget cfg orc meta pj0)).map
      Prod.fst :=
    (objGet_isSome_iff_mem_keys _ _).mp (by simp [hmv])
  have h := run_entry_update cfg orc pj0 hm hsv hne hreg hmem hnd
    (by rw [hr]; exact hac) hcv
  rw [h, he0]

/-- Witness for C9: `react-dom` is declared as `18.2.0` (truthy) in
`dependencies` and `^17.0.0` in `devDependencies`; the evaluation uses
`^17.0.0`, the replacement `19.1.0` lands in `dependencies`, and
`devDependencies` keeps `^17.0.0`. -/
theorem C9_devdeps_range_deps_write_witness :
    installedRangeOf cfgW orcW metaTargetW pjBothW "react-dom" = "^17.0.0" ∧
    ((run cfgW orcW pjBothW).2.map fun pjF => entryPair pjF "react-dom") =
      some (some (chosenCompatible cfgW orcW "react-dom" ["19.1.0"]), some "^17.0.0") := by
  have h := C9_devdeps_range_deps_write cfgW orcW pjBothW metaTargetW metaDomW
    "19.1.0" ["18.2.0"] "react-dom" "19.1.0" []
    [("react", "18.2.0"), ("react-dom", "18.2.0")] [("react-dom", "^17.0.0")]
    "18.2.0" "^17.0.0"
    (by decide) (by decide) (by decide) (by decide) rfl (by decide) rfl
    (by decide) (by decide) (by decide) (by decide)
  refine ⟨h.1, ?_⟩
  rw [h.2]
  decide

/-- C10: a run never removes a key from `dependencies` or `devDependencies`;
the only key it can ever add is the target package name under `dependencies`,
and when the target is absent from both classes that key is indeed added;
every other change overwrites the value of an existing entry in place. -/
theorem C10_only_target_key_added (cfg : Config) (orc : Oracle) (pj0 : PackageJson) :
    (((run cfg orc pj0).2.map fun pjF => keysOf pjF.devDependencies) =
      ((run cfg orc pj0).2.map fun _ => keysOf pj0.devDependencies)) ∧
    (∀ pjF, (run cfg orc pj0).2 = some pjF →
      keysOf pjF.dependencies = keysOf pj0.dependencies ∨
      keysOf pjF.dependencies = keysOf pj0.dependencies ++ [cfg.mainPkgName]) ∧
    (cfg.mainPkgName ∉ keysOf pj0.dependencies →
      cfg.mainPkgName ∉ keysOf pj0.devDependencies →
      ((run cfg orc pj0).2.map fun pjF => keysOf pjF.dependencies) =
        ((run cfg orc pj0).2.map fun _ => keysOf pj0.dependencies ++ [cfg.mainPkgName])) := by
  rcases hm : orc.registry cfg.mainPkgName with _ | meta
  · rw [run_fail_registry cfg orc pj0 hm]
    exact ⟨rfl, fun pjF h => Option.noConfusion h, fun _ _ => rfl⟩
  · rcases hsk : stableKeys meta with _ | ⟨v0, vs⟩
    · rw [run_fail_empty cfg orc pj0 hm hsk]
      exact ⟨rfl, fun pjF h => Option.noConfusion h, fun _ _ => rfl⟩
    · rw [run_eq cfg orc pj0 hm hsk]
      have hrd := keys_runDeps cfg orc (selectMain cfg orc (v0 :: vs) v0).1
        (getAllDependencies (manifestAfterTarget cfg orc meta pj0))
        ((getAllDependencies (manifestAfterTarget cfg orc meta pj0)).map Prod.fst)
        (manifestAfterTarget cfg orc meta pj0)
      have hat := keys_applyTarget cfg (chosenTarget cfg orc meta) pj0
      refine ⟨?_, ?_, ?_⟩
      · simp only [Option.map_some']
        congr 1
        rw [hrd.2]
        exact hat.1
      · intro pjF h
        have hF := Option.some.inj h
        rw [← hF, hrd.1]
        exact hat.2.1
      · intro hd1 hd2
        simp only [Option.map_some']
        congr 1
        rw [hrd.1]
        exact hat.2.2 hd1 hd2

/-- Witness for C10: the target absent from both classes gets appended under
`dependencies`, and `devDependencies` keys are untouched. -/
theorem C10_only_target_key_added_witness :
    ((run cfgW orcW pjFailW).2.map fun pjF => keysOf pjF.dependencies) =
      ((run cfgW orcW pjFailW).2.map fun _ =>
        keysOf pjFailW.dependencies ++ [cfgW.mainPkgName]) :=
  (C10_only_target_key_added cfgW orcW pjFailW).2.2 (by decide) (by decide)

end DepUpdater
